import Mathlib

/-
Verification of the openapi_explorer core: a shallow embedding of the
schema model, reference resolver, field extractor, cross-reference
indexer and filter/navigation state machine (src/parser.rs,
src/indexer.rs, src/app.rs), together with theorems settling the
specification claims.

Modelling conventions:
- Rust `HashMap<String, V>` values are modelled as association lists
  (`SchemaMap` for `HashMap<String, Schema>`, `List (String × V)`
  elsewhere); `HashMap::insert` replaces an existing entry in place or
  appends a fresh one, `get`/`get_mut` find the first matching key.
  Iteration order of a `HashMap` is arbitrary in Rust; the association
  list fixes one order, and theorems quantify over all lists, hence
  over all iteration orders.
- Rust `HashSet<String>` (FieldData.endpoints) is an insertion-unique
  list: `insert` appends if absent.
- The recursive reference resolver of parser.rs has no termination
  guarantee in Rust (it can diverge on cyclic reference graphs), so it
  is embedded with an explicit fuel parameter; `none` models
  non-termination (the Rust `Result` is never `Err`), and theorems are
  stated for sufficient fuel or conditionally on success.
- serde_json::Value payloads (example / enum / default) are carried as
  an opaque-to-the-program `Json` tree; no embedded operation inspects
  them.
- Byte-lexicographic string comparison of Rust (`Ord for String`,
  `sort_unstable`) is modelled by `strLe`, lexicographic comparison of
  the character lists (UTF-8 byte order and code-point order agree).
-/

mutual

inductive Json where
  | null : Json
  | bool (b : Bool) : Json
  | num (n : Int) : Json
  | str (s : String) : Json
  | arr (elems : JsonList) : Json
  | obj (members : JsonMembers) : Json

inductive JsonList where
  | nil : JsonList
  | cons (v : Json) (rest : JsonList) : JsonList

inductive JsonMembers where
  | nil : JsonMembers
  | cons (key : String) (v : Json) (rest : JsonMembers) : JsonMembers

end

/- The Schema tree of parser.rs (struct Schema).  `SchemaMap` is the
model of `HashMap<String, Schema>` (used for `properties` and for
`components.schemas`), `SchemaList` the model of `Vec<Schema>`. -/

mutual

inductive Schema where
  | mk (schema_type : Option String)
       (format : Option String)
       (description : Option String)
       (properties : Option SchemaMap)
       (items : Option Schema)
       (required : Option (List String))
       (all_of : Option SchemaList)
       (one_of : Option SchemaList)
       (any_of : Option SchemaList)
       ( not : Option Schema)
       (additional_properties : Option Schema)
       (nullable : Option Bool)
       (read_only : Option Bool)
       (write_only : Option Bool)
       (example_ : Option Json)
       (enum_ : Option JsonList)
       (default_ : Option Json)
       (reference : Option String) : Schema

inductive SchemaMap where
  | nil : SchemaMap
  | cons (name : String) (s : Schema) (rest : SchemaMap) : SchemaMap

inductive SchemaList where
  | nil : SchemaList
  | cons (s : Schema) (rest : SchemaList) : SchemaList

end

def Schema.schema_type : Schema → Option String
  | .mk ty _ _ _ _ _ _ _ _ _ _ _ _ _ _ _ _ _ => ty

def Schema.format : Schema → Option String
  | .mk _ fm _ _ _ _ _ _ _ _ _ _ _ _ _ _ _ _ => fm

def Schema.description : Schema → Option String
  | .mk _ _ ds _ _ _ _ _ _ _ _ _ _ _ _ _ _ _ => ds

def Schema.properties : Schema → Option SchemaMap
  | .mk _ _ _ pr _ _ _ _ _ _ _ _ _ _ _ _ _ _ => pr

def Schema.items : Schema → Option Schema
  | .mk _ _ _ _ it _ _ _ _ _ _ _ _ _ _ _ _ _ => it

def Schema.required : Schema → Option (List String)
  | .mk _ _ _ _ _ rq _ _ _ _ _ _ _ _ _ _ _ _ => rq

def Schema.all_of : Schema → Option SchemaList
  | .mk _ _ _ _ _ _ ao _ _ _ _ _ _ _ _ _ _ _ => ao

def Schema.one_of : Schema → Option SchemaList
  | .mk _ _ _ _ _ _ _ oo _ _ _ _ _ _ _ _ _ _ => oo

def Schema.any_of : Schema → Option SchemaList
  | .mk _ _ _ _ _ _ _ _ an _ _ _ _ _ _ _ _ _ => an

def Schema.reference : Schema → Option String
  | .mk _ _ _ _ _ _ _ _ _ _ _ _ _ _ _ _ _ rf => rf

/- Association-map primitives on SchemaMap, mirroring HashMap. -/

def SchemaMap.keys : SchemaMap → List String
  | .nil => []
  | .cons name _ rest => name :: rest.keys

def SchemaMap.get : SchemaMap → String → Option Schema
  | .nil, _ => none
  | .cons name s rest, n => if name = n then some s else rest.get n

/-- Mirrors assignment through `HashMap::get_mut`: update the entry for
the key if present, leave the map unchanged otherwise. -/
def SchemaMap.set : SchemaMap → String → Schema → SchemaMap
  | .nil, _, _ => .nil
  | .cons name s rest, n, v =>
    if name = n then .cons name v rest else .cons name s (rest.set n v)

/-- Mirrors `HashMap::insert`: replace the entry in place if present,
append a fresh one otherwise. -/
def SchemaMap.insert : SchemaMap → String → Schema → SchemaMap
  | .nil, n, v => .cons n v .nil
  | .cons name s rest, n, v =>
    if name = n then .cons name v rest else .cons name s (rest.insert n v)

def SchemaMap.isEmpty : SchemaMap → Bool
  | .nil => true
  | .cons _ _ _ => false

def SchemaMap.toList : SchemaMap → List (String × Schema)
  | .nil => []
  | .cons name s rest => (name, s) :: rest.toList

/- Plain-string helpers modelling the Rust std string operations the
program uses (`to_lowercase`, `to_uppercase`, `str::contains`, byte
order `Ord for String`). -/

def strLower (s : String) : String := String.mk (s.data.map Char.toLower)

def strUpper (s : String) : String := String.mk (s.data.map Char.toUpper)

/-- `containsSub l pat` holds iff `pat` occurs contiguously in `l`
(the sliding-window reading of Rust `str::contains` with a literal
pattern). -/
def containsSub : List Char → List Char → Bool
  | [], pat => pat.isPrefixOf []
  | c :: rest, pat => pat.isPrefixOf (c :: rest) || containsSub rest pat

def strContains (s pat : String) : Bool := containsSub s.data pat.data

/-- Lexicographic (byte-order) comparison of strings as lists of
characters; total and transitive, used to model `sort_unstable` on
`Vec<String>`. -/
def charListLe : List Char → List Char → Bool
  | [], _ => true
  | _ :: _, [] => false
  | a :: as, b :: bs => if a < b then true else if b < a then false else charListLe as bs

def strLe (a b : String) : Bool := charListLe a.data b.data

def strLeRel (a b : String) : Prop := strLe a b = true

instance : DecidableRel strLeRel := fun a b => by
  unfold strLeRel; infer_instance

def sortStrings (l : List String) : List String := l.insertionSort strLeRel

/- ---------------------------------------------------------------
   parser.rs: the remaining data model (OpenApiSpec and friends)
   --------------------------------------------------------------- -/

structure Info where
  title : String
  version : String
  description : Option String

structure Parameter where
  name : String
  in_ : String
  description : Option String
  required : Option Bool
  schema : Option Schema

structure MediaType where
  schema : Option Schema

structure RequestBody where
  description : Option String
  content : List (String × MediaType)

structure Response where
  description : String
  content : Option (List (String × MediaType))

structure Operation where
  operation_id : Option String
  summary : Option String
  description : Option String
  tags : Option (List String)
  parameters : Option (List Parameter)
  request_body : Option RequestBody
  responses : List (String × Response)

structure PathItem where
  operations : List (String × Operation)

structure Components where
  schemas : Option SchemaMap

structure OpenApiSpec where
  openapi : String
  info : Info
  paths : List (String × PathItem)
  components : Option Components

/- ---------------------------------------------------------------
   parser.rs: field-name extraction (impl Schema)
   --------------------------------------------------------------- -/

def optKeys : Option SchemaMap → List String
  | none => []
  | some properties => properties.keys

mutual

/-- `Schema::get_field_names`: keys of the property map, then the
fields of the item sub-schema, then of each member of allOf, oneOf,
anyOf, in source order. -/
def Schema.get_field_names : Schema → List String
  | .mk _ _ _ pr it _ ao oo an _ _ _ _ _ _ _ _ _ =>
    optKeys pr ++ optFieldNames it ++ optFieldNamesList ao
      ++ optFieldNamesList oo ++ optFieldNamesList an

def optFieldNames : Option Schema → List String
  | none => []
  | some s => s.get_field_names

def optFieldNamesList : Option SchemaList → List String
  | none => []
  | some l => l.get_field_names_list

def SchemaList.get_field_names_list : SchemaList → List String
  | .nil => []
  | .cons s rest => s.get_field_names ++ rest.get_field_names_list

end

/-- `Schema::get_field_type`: the declared type of a direct property,
when both the property map and the property exist. -/
def Schema.get_field_type (s : Schema) (field_name : String) : Option String :=
  (s.properties.bind (fun properties => properties.get field_name)).bind Schema.schema_type

/-- `Schema::get_field_description`: likewise for the description. -/
def Schema.get_field_description (s : Schema) (field_name : String) : Option String :=
  (s.properties.bind (fun properties => properties.get field_name)).bind Schema.description

/- ---------------------------------------------------------------
   parser.rs: reference resolution
   --------------------------------------------------------------- -/

/-- `extract_schema_name_from_ref`: strip the literal 21-byte prefix
`#/components/schemas/`. -/
def extract_schema_name_from_ref (ref_path : String) : Option String :=
  if "#/components/schemas/".data.isPrefixOf ref_path.data then
    some (String.mk (ref_path.data.drop 21))
  else
    none

/-- `cur` if set, otherwise the inherited value (the attribute-merge
rule: copy from the target only when the node left the attribute
unset). -/
def mergeAttr {α : Type} : Option α → Option α → Option α
  | none, inherited => inherited
  | some v, _ => some v

/-- The head step of `resolve_schema_refs_recursive`: if the node
carries a reference whose target name parses and is present in the
map, copy the target's properties / type / description / required list
into the node for each attribute the node left unset; in every case in
which a reference was present, clear it. -/
def resolve_node_reference (s : Schema) (all_schemas : SchemaMap) : Schema :=
  match s with
  | .mk ty fm ds pr it rq ao oo an nt ap nu ro wo ex en df rf =>
    match rf with
    | none => s
    | some ref_path =>
      match extract_schema_name_from_ref ref_path with
      | none => .mk ty fm ds pr it rq ao oo an nt ap nu ro wo ex en df none
      | some target_name =>
        match all_schemas.get target_name with
        | none => .mk ty fm ds pr it rq ao oo an nt ap nu ro wo ex en df none
        | some target =>
          .mk (mergeAttr ty target.schema_type)
              fm
              (mergeAttr ds target.description)
              (mergeAttr pr target.properties)
              it
              (mergeAttr rq target.required)
              ao oo an nt ap nu ro wo ex en df none

/- Option-valued traversal combinators used to thread the fuel-indexed
resolvers through the nested containers. -/

def SchemaMap.mapValuesM (f : Schema → Option Schema) : SchemaMap → Option SchemaMap
  | .nil => some .nil
  | .cons name s rest =>
    (f s).bind fun s2 => (rest.mapValuesM f).map fun rest2 => .cons name s2 rest2

def SchemaList.mapM (f : Schema → Option Schema) : SchemaList → Option SchemaList
  | .nil => some .nil
  | .cons s rest =>
    (f s).bind fun s2 => (rest.mapM f).map fun rest2 => .cons s2 rest2

def optMapM (f : α → Option β) : Option α → Option (Option β)
  | none => some none
  | some x => (f x).map some

def mapOptionList (f : α → Option β) : List α → Option (List β)
  | [] => some []
  | x :: rest => (f x).bind fun y => (mapOptionList f rest).map fun rest2 => y :: rest2

/-- The recursive descent shared by each level of
`resolve_schema_refs_recursive`: rebuild the node with the property
values, the item sub-schema and the three composition lists resolved
by `f`; `none` as soon as one child fails. -/
def resolveStep (g : Schema) (f : Schema → Option Schema) : Option Schema :=
  match g with
  | .mk ty fm ds pr it rq ao oo an nt ap nu ro wo ex en df rf =>
    (optMapM (SchemaMap.mapValuesM f) pr).bind fun pr2 =>
    (optMapM f it).bind fun it2 =>
    (optMapM (SchemaList.mapM f) ao).bind fun ao2 =>
    (optMapM (SchemaList.mapM f) oo).bind fun oo2 =>
    (optMapM (SchemaList.mapM f) an).map fun an2 =>
    .mk ty fm ds pr2 it2 rq ao2 oo2 an2 nt ap nu ro wo ex en df rf

/-- `resolve_schema_refs_recursive`, with fuel bounding the recursion
depth: resolve the node's own reference, then recurse into property
values, the item sub-schema, and the allOf / oneOf / anyOf lists (the
`not` and `additional_properties` sub-schemas are not visited, as in
the source).  `none` models a recursion that exceeds the fuel, which
in the Rust original is a non-terminating run. -/
def resolve_schema_refs_recursive : Nat → Schema → SchemaMap → Option Schema
  | 0, _, _ => none
  | fuel + 1, schema, all_schemas =>
    resolveStep (resolve_node_reference schema all_schemas)
      (fun v => resolve_schema_refs_recursive fuel v all_schemas)

/-- The loop body of `resolve_schema_references`: process the listed
schema names in order; each step resolves that entry against a
snapshot of the current map and writes the result back. -/
def resolve_schema_references_go (fuel : Nat) : List String → SchemaMap → Option SchemaMap
  | [], schemas => some schemas
  | schema_name :: rest, schemas =>
    match schemas.get schema_name with
    | none => resolve_schema_references_go fuel rest schemas
    | some schema =>
      match resolve_schema_refs_recursive fuel schema schemas with
      | none => none
      | some schema2 => resolve_schema_references_go fuel rest (schemas.set schema_name schema2)

def resolve_schema_references (fuel : Nat) (schemas : SchemaMap) : Option SchemaMap :=
  resolve_schema_references_go fuel schemas.keys schemas

/-- `Schema` with its reference cleared (the `resolved_schema` copy in
`resolve_parameter_schema_refs`). -/
def Schema.clearReference : Schema → Schema
  | .mk ty fm ds pr it rq ao oo an nt ap nu ro wo ex en df _ =>
    .mk ty fm ds pr it rq ao oo an nt ap nu ro wo ex en df none

/-- The head step of `resolve_parameter_schema_refs`: a node carrying
a reference with an existing target is replaced outright by a copy of
the target with the reference cleared; otherwise — including a
dangling reference — the node is left as it is. -/
def param_node_replacement (schema : Schema) (spec : OpenApiSpec) : Schema :=
  match schema.reference with
  | none => schema
  | some ref_path =>
    match extract_schema_name_from_ref ref_path with
    | none => schema
    | some target_name =>
      match spec.components with
      | none => schema
      | some components =>
        match components.schemas with
        | none => schema
        | some schemas =>
          match schemas.get target_name with
          | none => schema
          | some target => target.clearReference

/-- The recursive descent of `resolve_parameter_schema_refs`:
property values and the item sub-schema only (the composition lists
are not visited by this resolver). -/
def paramStep (g : Schema) (f : Schema → Option Schema) : Option Schema :=
  match g with
  | .mk ty fm ds pr it rq ao oo an nt ap nu ro wo ex en df rf =>
    (optMapM (SchemaMap.mapValuesM f) pr).bind fun pr2 =>
    (optMapM f it).map fun it2 =>
    .mk ty fm ds pr2 it2 rq ao oo an nt ap nu ro wo ex en df rf

def resolve_parameter_schema_refs : Nat → Schema → OpenApiSpec → Option Schema
  | 0, _, _ => none
  | fuel + 1, schema, spec =>
    paramStep (param_node_replacement schema spec)
      (fun v => resolve_parameter_schema_refs fuel v spec)

/-- `resolve_operation_references`: resolve the schema of every
parameter, of every request-body media type, and of every response
media type. -/
def resolveParamList (f : Schema → Option Schema) (parameters : List Parameter) :
    Option (List Parameter) :=
  mapOptionList
    (fun p =>
      match p.schema with
      | none => some p
      | some s => (f s).map fun s2 => { p with schema := some s2 })
    parameters

def resolveContentList (f : Schema → Option Schema) (content : List (String × MediaType)) :
    Option (List (String × MediaType)) :=
  mapOptionList
    (fun ct =>
      match ct.2.schema with
      | none => some ct
      | some s => (f s).map fun s2 => (ct.1, MediaType.mk (some s2)))
    content

/-- `resolve_operation_references`: resolve the schema of every
parameter, of every request-body media type, and of every response
media type. -/
def resolve_operation_references (fuel : Nat) (operation : Operation) (spec : OpenApiSpec) :
    Option Operation :=
  (optMapM (resolveParamList (fun s => resolve_parameter_schema_refs fuel s spec))
      operation.parameters).bind fun parameters2 =>
  (optMapM
      (fun rb =>
        (resolveContentList (fun s => resolve_parameter_schema_refs fuel s spec) rb.content).map
          fun c2 => { rb with content := c2 })
      operation.request_body).bind fun request_body2 =>
  (mapOptionList
      (fun (resp : String × Response) =>
        match resp.2.content with
        | none => some resp
        | some content =>
          (resolveContentList (fun s => resolve_parameter_schema_refs fuel s spec) content).map
            fun c2 => (resp.1, { resp.2 with content := some c2 }))
      operation.responses).map fun responses2 =>
  { operation with
      parameters := parameters2
      request_body := request_body2
      responses := responses2 }

/-- The component-schema stage of `resolve_references`. -/
def resolve_components (fuel : Nat) (spec : OpenApiSpec) : Option OpenApiSpec :=
  match spec.components with
  | none => some spec
  | some components =>
    match components.schemas with
    | none => some spec
    | some schemas =>
      (resolve_schema_references fuel schemas).map fun schemas2 =>
        { spec with components := some { components with schemas := some schemas2 } }

/-- The operations stage of `resolve_references`, run against the
snapshot taken after component resolution. -/
def resolve_paths (fuel : Nat) (paths : List (String × PathItem)) (spec1 : OpenApiSpec) :
    Option (List (String × PathItem)) :=
  mapOptionList
    (fun (pp : String × PathItem) =>
      (mapOptionList
        (fun (mo : String × Operation) =>
          (resolve_operation_references fuel mo.2 spec1).map fun op2 => (mo.1, op2))
        pp.2.operations).map fun ops2 => (pp.1, PathItem.mk ops2))
    paths

/-- `resolve_references`: resolve the named component schemas in
place, then — against a snapshot of the updated document — resolve the
references inside every operation of every path. -/
def resolve_references (fuel : Nat) (spec : OpenApiSpec) : Option OpenApiSpec :=
  (resolve_components fuel spec).bind fun spec1 =>
  (resolve_paths fuel spec1.paths spec1).map fun paths2 => { spec1 with paths := paths2 }


/-- The component-schema map of a document (empty when absent). -/
def specSchemas (spec : OpenApiSpec) : SchemaMap :=
  match spec.components with
  | none => .nil
  | some components =>
    match components.schemas with
    | none => .nil
    | some schemas => schemas

/- ---------------------------------------------------------------
   indexer.rs: the cross-reference index
   --------------------------------------------------------------- -/

structure FieldData where
  field_type : String
  description : Option String
  schemas : List String
  endpoints : List String

structure FieldIndex where
  fields : List (String × FieldData)
  schemas : SchemaMap
  endpoint_fields : List (String × List String)

def FieldIndex.new : FieldIndex := ⟨[], .nil, []⟩

/- Association-list primitives for the `HashMap<String, _>` members of
FieldIndex, with `HashMap::insert` replace-or-append semantics. -/

def assocGet {α : Type} : List (String × α) → String → Option α
  | [], _ => none
  | (k, v) :: rest, n => if k = n then some v else assocGet rest n

def assocInsert {α : Type} : List (String × α) → String → α → List (String × α)
  | [], n, v => [(n, v)]
  | (k, w) :: rest, n, v =>
    if k = n then (k, v) :: rest else (k, w) :: assocInsert rest n v

def assocKeys {α : Type} (l : List (String × α)) : List String := l.map Prod.fst

/-- `FieldIndex::get_endpoints_for_field`. -/
def FieldIndex.get_endpoints_for_field (idx : FieldIndex) (field_name : String) : List String :=
  ((assocGet idx.fields field_name).map (fun data => data.endpoints)).getD []

/-- `FieldIndex::is_critical_field`: a known field is critical iff some
endpoint key in its endpoint set, lowercased, contains `post` or
`put`. -/
def FieldIndex.is_critical_field (idx : FieldIndex) (field_name : String) : Bool :=
  ((assocGet idx.fields field_name).map
    (fun data =>
      data.endpoints.any
        (fun endpoint =>
          strContains (strLower endpoint) "post" || strContains (strLower endpoint) "put"))).getD
    false

/-- `FieldIndex::get_schema_fields`. -/
def FieldIndex.get_schema_fields (idx : FieldIndex) (schema_name : String) : List String :=
  ((idx.schemas.get schema_name).map (fun schema => schema.get_field_names)).getD []

mutual

/-- `extract_fields_from_schema` (indexer.rs): direct property keys,
then the item sub-schema's fields, then those of each member of allOf,
oneOf, anyOf. -/
def extract_fields_from_schema : Schema → List String
  | .mk _ _ _ pr it _ ao oo an _ _ _ _ _ _ _ _ _ =>
    optKeys pr ++ optExtractFields it ++ optExtractFieldsList ao
      ++ optExtractFieldsList oo ++ optExtractFieldsList an

def optExtractFields : Option Schema → List String
  | none => []
  | some s => extract_fields_from_schema s

def optExtractFieldsList : Option SchemaList → List String
  | none => []
  | some l => extract_fields_from_schema_list l

def extract_fields_from_schema_list : SchemaList → List String
  | .nil => []
  | .cons s rest => extract_fields_from_schema s ++ extract_fields_from_schema_list rest

end

/-- `HashSet::insert` on the endpoint set: append if absent. -/
def insertEndpointSet (endpoints : List String) (key : String) : List String :=
  if endpoints.contains key then endpoints else endpoints ++ [key]

/-- Schema pass, inner loop: for each extracted field name, fetch or
create its FieldData (type / description from this schema's direct
property definition, type defaulting to "unknown"), then append the
schema name to its owning-schema list if not already present. -/
def addSchemaFields (schema_name : String) (schema : Schema) :
    List String → List (String × FieldData) → List (String × FieldData)
  | [], fields => fields
  | field_name :: rest, fields =>
    let data :=
      match assocGet fields field_name with
      | some d => d
      | none =>
        { field_type := (schema.get_field_type field_name).getD "unknown"
          description := schema.get_field_description field_name
          schemas := []
          endpoints := [] }
    let data2 :=
      if data.schemas.contains schema_name then data
      else { data with schemas := data.schemas ++ [schema_name] }
    addSchemaFields schema_name schema rest (assocInsert fields field_name data2)

/-- Schema pass of `build_field_index`: store each named schema, then
index its field names. -/
def schemaPass : SchemaMap → FieldIndex → FieldIndex
  | .nil, index => index
  | .cons schema_name schema rest, index =>
    let index2 := { index with schemas := index.schemas.insert schema_name schema }
    let index3 :=
      { index2 with fields := addSchemaFields schema_name schema schema.get_field_names index2.fields }
    schemaPass rest index3

/-- Endpoint pass, innermost loop: push each occurrence onto the
endpoint's field list and, when the field already exists in the field
map, add this endpoint key to its endpoint set. -/
def addEndpointOccurrences (endpoint_key : String) :
    List String → List String → List (String × FieldData) →
    List String × List (String × FieldData)
  | [], acc, fields => (acc, fields)
  | field :: rest, acc, fields =>
    let fields2 :=
      match assocGet fields field with
      | some data =>
        assocInsert fields field
          { data with endpoints := insertEndpointSet data.endpoints endpoint_key }
      | none => fields
    addEndpointOccurrences endpoint_key rest (acc ++ [field]) fields2

/-- Endpoint pass over an operation's parameter list. -/
def paramFieldsPass (endpoint_key : String) :
    List Parameter → List String → List (String × FieldData) →
    List String × List (String × FieldData)
  | [], acc, fields => (acc, fields)
  | param :: rest, acc, fields =>
    match param.schema with
    | none => paramFieldsPass endpoint_key rest acc fields
    | some schema =>
      let step := addEndpointOccurrences endpoint_key (extract_fields_from_schema schema) acc fields
      paramFieldsPass endpoint_key rest step.1 step.2

/-- Endpoint pass over one content-type map (request body or one
response). -/
def contentFieldsPass (endpoint_key : String) :
    List (String × MediaType) → List String → List (String × FieldData) →
    List String × List (String × FieldData)
  | [], acc, fields => (acc, fields)
  | ct :: rest, acc, fields =>
    match ct.2.schema with
    | none => contentFieldsPass endpoint_key rest acc fields
    | some schema =>
      let step := addEndpointOccurrences endpoint_key (extract_fields_from_schema schema) acc fields
      contentFieldsPass endpoint_key rest step.1 step.2

/-- Endpoint pass over an operation's responses. -/
def responsesFieldsPass (endpoint_key : String) :
    List (String × Response) → List String → List (String × FieldData) →
    List String × List (String × FieldData)
  | [], acc, fields => (acc, fields)
  | resp :: rest, acc, fields =>
    match resp.2.content with
    | none => responsesFieldsPass endpoint_key rest acc fields
    | some content =>
      let step := contentFieldsPass endpoint_key content acc fields
      responsesFieldsPass endpoint_key rest step.1 step.2

/-- One operation of the endpoint pass: parameters, then request body,
then responses, in source order. -/
def opFields (endpoint_key : String) (operation : Operation)
    (fields : List (String × FieldData)) : List String × List (String × FieldData) :=
  let step1 :=
    match operation.parameters with
    | none => (([] : List String), fields)
    | some parameters => paramFieldsPass endpoint_key parameters [] fields
  let step2 :=
    match operation.request_body with
    | none => step1
    | some request_body => contentFieldsPass endpoint_key request_body.content step1.1 step1.2
  responsesFieldsPass endpoint_key operation.responses step2.1 step2.2

/-- The canonical endpoint key `"<METHOD-UPPERCASE> <path>"`. -/
def endpointKey (method path : String) : String := strUpper method ++ " " ++ path

/-- Endpoint pass over the operations of one path. -/
def opsPass (path : String) : List (String × Operation) → FieldIndex → FieldIndex
  | [], index => index
  | (method, operation) :: rest, index =>
    let endpoint_key := endpointKey method path
    let step := opFields endpoint_key operation index.fields
    opsPass path rest
      { index with
          fields := step.2
          endpoint_fields := assocInsert index.endpoint_fields endpoint_key step.1 }

/-- Endpoint pass of `build_field_index`. -/
def endpointPass : List (String × PathItem) → FieldIndex → FieldIndex
  | [], index => index
  | (path, path_item) :: rest, index => endpointPass rest (opsPass path path_item.operations index)

/-- The state of the index after the schema pass of
`build_field_index` only (an absent components section contributes the
empty schema map, not an error). -/
def schema_pass_index (openapi_spec : OpenApiSpec) : FieldIndex :=
  schemaPass (specSchemas openapi_spec) FieldIndex.new

/-- `build_field_index` (indexer.rs): schema pass then endpoint pass. -/
def build_field_index (openapi_spec : OpenApiSpec) : FieldIndex :=
  endpointPass openapi_spec.paths (schema_pass_index openapi_spec)

/- ---------------------------------------------------------------
   app.rs: filter / navigation state machine and reload
   --------------------------------------------------------------- -/

inductive View where
  | Fields | Schemas | Endpoints | Graph | Stats
  deriving DecidableEq

inductive Panel where
  | Left | Center | Right
  deriving DecidableEq

structure App where
  openapi_spec : OpenApiSpec
  field_index : FieldIndex
  current_view : View
  current_panel : Panel
  selected_field : Option String
  selected_schema : Option String
  selected_endpoint : Option String
  search_query : String
  filtered_fields : List String
  filtered_schemas : List String
  filtered_endpoints : List String
  should_quit : Bool
  show_help : Bool
  show_endpoint_details : Bool
  selected_endpoint_for_details : Option String
  field_list_state : Nat
  schema_list_state : Nat
  endpoint_list_state : Nat
  file_path : Option String
  should_reload : Bool
  reload_error : Option String
  is_loading : Bool
  loading_message : String
  validation_warnings : List String

/-- The clamp applied to every selection cursor at the end of
`update_filters`: `min(cursor, len - 1)` for a non-empty list, `0`
for an empty one. -/
def clampCursor (cursor : Nat) (l : List String) : Nat :=
  if l.isEmpty then 0 else min cursor (l.length - 1)

/-- Fuzzy scoring of one candidate list (non-empty-query branch of
`update_filters`): keep the names the matcher scores, sort by score
descending, drop the scores.  The matcher (SkimMatcherV2, an external
crate) is passed as an oracle `name → query → Option score`. -/
def fuzzyFilter (matcher : String → String → Option Int) (query : String)
    (names : List String) : List String :=
  let scored := names.filterMap (fun name => (matcher name query).map (fun score => (name, score)))
  (scored.insertionSort (fun a b => b.2 ≤ a.2)).map Prod.fst

/-- `App::update_filters`: empty query — all three name sets, sorted
ascending (note the endpoint list is the set of path strings); non-empty
query — fuzzy-scored lists.  Then clamp all three cursors. -/
def update_filters (matcher : String → String → Option Int) (app : App) : App :=
  let app2 :=
    if app.search_query = "" then
      { app with
          filtered_fields := sortStrings (assocKeys app.field_index.fields)
          filtered_schemas := sortStrings app.field_index.schemas.keys
          filtered_endpoints := sortStrings (assocKeys app.openapi_spec.paths) }
    else
      { app with
          filtered_fields := fuzzyFilter matcher app.search_query (assocKeys app.field_index.fields)
          filtered_schemas := fuzzyFilter matcher app.search_query app.field_index.schemas.keys
          filtered_endpoints := fuzzyFilter matcher app.search_query (assocKeys app.openapi_spec.paths) }
  { app2 with
      field_list_state := clampCursor app2.field_list_state app2.filtered_fields
      schema_list_state := clampCursor app2.schema_list_state app2.filtered_schemas
      endpoint_list_state := clampCursor app2.endpoint_list_state app2.filtered_endpoints }

/-- `App::navigate_up`. -/
def navigate_up (app : App) : App :=
  match app.current_panel with
  | .Left =>
    match app.current_view with
    | .Fields =>
      if app.field_list_state > 0 then { app with field_list_state := app.field_list_state - 1 }
      else app
    | .Schemas =>
      if app.schema_list_state > 0 then { app with schema_list_state := app.schema_list_state - 1 }
      else app
    | .Endpoints =>
      if app.endpoint_list_state > 0 then
        { app with endpoint_list_state := app.endpoint_list_state - 1 }
      else app
    | _ => app
  | .Right =>
    match app.selected_field with
    | some selected_field =>
      let endpoints := app.field_index.get_endpoints_for_field selected_field
      if app.endpoint_list_state > 0 ∧ endpoints ≠ [] then
        { app with endpoint_list_state := app.endpoint_list_state - 1 }
      else app
    | none => app
  | .Center => app

/-- `App::navigate_down` (note the Right-panel bound is the length of
the selected field's endpoint list, not of the filtered endpoint
list). -/
def navigate_down (app : App) : App :=
  match app.current_panel with
  | .Left =>
    match app.current_view with
    | .Fields =>
      if app.field_list_state < app.filtered_fields.length - 1 then
        { app with field_list_state := app.field_list_state + 1 }
      else app
    | .Schemas =>
      if app.schema_list_state < app.filtered_schemas.length - 1 then
        { app with schema_list_state := app.schema_list_state + 1 }
      else app
    | .Endpoints =>
      if app.endpoint_list_state < app.filtered_endpoints.length - 1 then
        { app with endpoint_list_state := app.endpoint_list_state + 1 }
      else app
    | _ => app
  | .Right =>
    match app.selected_field with
    | some selected_field =>
      let endpoints := app.field_index.get_endpoints_for_field selected_field
      if endpoints ≠ [] ∧ app.endpoint_list_state < endpoints.length - 1 then
        { app with endpoint_list_state := app.endpoint_list_state + 1 }
      else app
    | none => app
  | .Center => app

/-- `App::validate_spec`, as the list of warnings it pushes, in push
order. -/
def compute_validation_warnings (spec : OpenApiSpec) (index : FieldIndex) : List String :=
  (match spec.components with
   | none => ["No components section found in OpenAPI spec"]
   | some components =>
     match components.schemas with
     | none => ["No schemas defined in components"]
     | some schemas => if schemas.isEmpty then ["No schemas defined in components"] else [])
  ++ (if spec.paths.isEmpty then ["No paths/endpoints defined in spec"] else [])
  ++ index.fields.filterMap
       (fun p =>
         if p.2.field_type = "unknown" then
           some ("Field \x27" ++ p.1 ++ "\x27 has unknown type")
         else none)
  ++ spec.paths.filterMap
       (fun p =>
         if p.2.operations.isEmpty then
           some ("Path \x27" ++ p.1 ++ "\x27 has no operations defined")
         else none)
  ++ (let missing_descriptions :=
        (spec.paths.flatMap (fun p => p.2.operations)).countP
          (fun mo => mo.2.description.isNone && mo.2.summary.isNone)
      if missing_descriptions > 0 then
        [toString missing_descriptions ++ " endpoint(s) missing description/summary"]
      else [])
  ++ (let unused_schemas :=
        index.schemas.keys.countP
          (fun schema_name =>
            ! index.fields.any (fun p => p.2.schemas.contains schema_name && ! p.2.endpoints.isEmpty))
      if unused_schemas > 0 then
        [toString unused_schemas ++ " schema(s) not used in any endpoint"]
      else [])

def validate_spec (app : App) : App :=
  { app with validation_warnings := compute_validation_warnings app.openapi_spec app.field_index }

/-- `App::reload`.  Document retrieval and parsing
(`parser::parse_openapi`) is an external collaborator: its outcome for
the current file path is passed in as `parse_result`.  On success the
new document is indexed and swapped in; on failure (including an absent
file path) the error message is recorded in `reload_error` and the rest
of the state is left alone. -/
def App.reload (matcher : String → String → Option Int) (app : App)
    (parse_result : Except String OpenApiSpec) : App × Except String Unit :=
  match app.file_path with
  | some file_path =>
    let app1 := { app with is_loading := true, loading_message := "Parsing " ++ file_path ++ "..." }
    match parse_result with
    | .ok spec =>
      let app2 := { app1 with loading_message := "Building field index..." }
      let new_index := build_field_index spec
      let app3 := { app2 with openapi_spec := spec, field_index := new_index }
      let app4 := update_filters matcher app3
      let app5 := validate_spec app4
      ({ app5 with reload_error := none, is_loading := false, loading_message := "" }, .ok ())
    | .error e =>
      let error_msg := "Failed to reload: " ++ e
      ({ app1 with reload_error := some error_msg, is_loading := false, loading_message := "" },
        .error error_msg)
  | none =>
    let error_msg := "No file path available for reload"
    ({ app with reload_error := some error_msg, is_loading := false, loading_message := "" },
      .error error_msg)

/- ---------------------------------------------------------------
   Specification-side definitions
   --------------------------------------------------------------- -/

/-- All endpoint keys `"<METHOD-UPPERCASE> <path>"` of a document. -/
def endpoint_keys (spec : OpenApiSpec) : List String :=
  spec.paths.flatMap (fun pp => pp.2.operations.map (fun mo => endpointKey mo.1 pp.1))

/-- The field-name occurrences an operation contributes to its
endpoint's field list: parameters, then request body, then responses. -/
def opExtractFields (operation : Operation) : List String :=
  (match operation.parameters with
   | none => []
   | some parameters =>
     parameters.flatMap
       (fun p => match p.schema with
                 | none => []
                 | some s => extract_fields_from_schema s))
  ++ (match operation.request_body with
      | none => []
      | some request_body =>
        request_body.content.flatMap
          (fun ct => match ct.2.schema with
                     | none => []
                     | some s => extract_fields_from_schema s))
  ++ operation.responses.flatMap
       (fun resp =>
         match resp.2.content with
         | none => []
         | some content =>
           content.flatMap
             (fun ct => match ct.2.schema with
                        | none => []
                        | some s => extract_fields_from_schema s))

/-- Every field name defined by some named component schema. -/
def allSchemaFieldNames (openapi_spec : OpenApiSpec) : List String :=
  (specSchemas openapi_spec).toList.flatMap (fun p => p.2.get_field_names)

/-- The first named schema (in iteration order) defining a field. -/
def firstDefining (schemas : SchemaMap) (f : String) : Option (String × Schema) :=
  schemas.toList.find? (fun p => p.2.get_field_names.contains f)

/-- The names of all schemas defining a field, in iteration order. -/
def definingNames (schemas : SchemaMap) (f : String) : List String :=
  (schemas.toList.filter (fun p => p.2.get_field_names.contains f)).map Prod.fst

/-- The claim's bounds predicate for one selection cursor: at most
`len - 1`, and exactly `0` when the list is empty. -/
def cursorInBounds (cursor : Nat) (l : List String) : Prop :=
  cursor ≤ l.length - 1 ∧ (l = [] → cursor = 0)

/-- All three selection cursors within the bounds of their filtered
lists. -/
def cursorsInBounds (app : App) : Prop :=
  cursorInBounds app.field_list_state app.filtered_fields ∧
  cursorInBounds app.schema_list_state app.filtered_schemas ∧
  cursorInBounds app.endpoint_list_state app.filtered_endpoints

instance (app : App) : Decidable (cursorsInBounds app) := by
  unfold cursorsInBounds cursorInBounds; infer_instance

/-- A query-edit session: each edit replaces the query string and
recomputes the filters (ui event loop: Search / ClearSearch /
Backspace all assign the query then call `update_filters`). -/
def applyQueryEdits (matcher : String → String → Option Int) (qs : List String) (app : App) : App :=
  qs.foldl (fun a q => update_filters matcher { a with search_query := q }) app

mutual

/-- The resolution invariant of the claim, restricted to the tree
positions the resolver traverses: no reference string at the node
itself, in property values, in the item sub-schema, or anywhere in
the allOf / oneOf / anyOf lists. -/
def Schema.refsCleared : Schema → Bool
  | .mk _ _ _ pr it _ ao oo an _ _ _ _ _ _ _ _ rf =>
    rf.isNone && optRefsClearedMap pr && optRefsCleared it
      && optRefsClearedList ao && optRefsClearedList oo && optRefsClearedList an

def optRefsClearedMap : Option SchemaMap → Bool
  | none => true
  | some l => l.refsClearedMap

def optRefsCleared : Option Schema → Bool
  | none => true
  | some s => s.refsCleared

def optRefsClearedList : Option SchemaList → Bool
  | none => true
  | some l => l.refsClearedList

def SchemaMap.refsClearedMap : SchemaMap → Bool
  | .nil => true
  | .cons _ s rest => s.refsCleared && rest.refsClearedMap

def SchemaList.refsClearedList : SchemaList → Bool
  | .nil => true
  | .cons s rest => s.refsCleared && rest.refsClearedList

end

def refTarget : Option String → List String
  | none => []
  | some ref_path => (extract_schema_name_from_ref ref_path).toList

mutual

/-- The schema names referenced anywhere in the traversed part of a
schema tree (the edges of the named-schema reference graph). -/
def Schema.allRefs : Schema → List String
  | .mk _ _ _ pr it _ ao oo an _ _ _ _ _ _ _ _ rf =>
    refTarget rf ++ optAllRefsMap pr ++ optAllRefs it
      ++ optAllRefsList ao ++ optAllRefsList oo ++ optAllRefsList an

def optAllRefsMap : Option SchemaMap → List String
  | none => []
  | some l => l.allRefsMap

def optAllRefs : Option Schema → List String
  | none => []
  | some s => s.allRefs

def optAllRefsList : Option SchemaList → List String
  | none => []
  | some l => l.allRefsList

def SchemaMap.allRefsMap : SchemaMap → List String
  | .nil => []
  | .cons _ s rest => s.allRefs ++ rest.allRefsMap

def SchemaList.allRefsList : SchemaList → List String
  | .nil => []
  | .cons s rest => s.allRefs ++ rest.allRefsList

end

mutual

/-- Size of the traversed part of a schema tree, the structural
component of the termination measure. -/
def Schema.sizeM : Schema → Nat
  | .mk _ _ _ pr it _ ao oo an _ _ _ _ _ _ _ _ _ =>
    1 + optSizeMap pr + optSize it + optSizeList ao + optSizeList oo + optSizeList an

def optSizeMap : Option SchemaMap → Nat
  | none => 0
  | some l => l.sizeMap

def optSize : Option Schema → Nat
  | none => 0
  | some s => s.sizeM

def optSizeList : Option SchemaList → Nat
  | none => 0
  | some l => l.sizeList

def SchemaMap.sizeMap : SchemaMap → Nat
  | .nil => 0
  | .cons _ s rest => s.sizeM + rest.sizeMap

def SchemaList.sizeList : SchemaList → Nat
  | .nil => 0
  | .cons s rest => s.sizeM + rest.sizeList

end

/-- The named-schema reference graph of the map admits a rank function
that strictly decreases along every reference edge — the standard
characterization of acyclicity (no schema reaches itself through
reference strings) for a finite graph. -/
def RankCompat (schemas : SchemaMap) (r : String → Nat) : Prop :=
  ∀ p ∈ schemas.toList, ∀ b ∈ p.2.allRefs, r b < r p.1

/-- Every schema attached to an operation of the document (parameter
schemas, request-body media types, response media types). -/
def opSchemas (operation : Operation) : List Schema :=
  (match operation.parameters with
   | none => []
   | some parameters => parameters.filterMap (fun p => p.schema))
  ++ (match operation.request_body with
      | none => []
      | some request_body => request_body.content.filterMap (fun ct => ct.2.schema))
  ++ operation.responses.flatMap
       (fun resp =>
         match resp.2.content with
         | none => []
         | some content => content.filterMap (fun ct => ct.2.schema))

def specOpSchemas (spec : OpenApiSpec) : List Schema :=
  spec.paths.flatMap (fun pp => pp.2.operations.flatMap (fun mo => opSchemas mo.2))

def SchemaList.toListS : SchemaList → List Schema
  | .nil => []
  | .cons s rest => s :: rest.toListS

def listSizeM (l : List Schema) : Nat := l.foldr (fun s acc => s.sizeM + acc) 0

def maxRank (r : String → Nat) (l : List String) : Nat :=
  l.foldr (fun b acc => max (r b) acc) 0

/- ---------------------------------------------------------------
   Concrete instances used by counterexamples and witnesses
   --------------------------------------------------------------- -/

def emptySchema : Schema :=
  .mk none none none none none none none none none none none none none none none none none none

def refOnlySchema (r : String) : Schema :=
  .mk none none none none none none none none none none none none none none none none none (some r)

def propsSchema (pr : SchemaMap) : Schema :=
  .mk (some "object") none none (some pr) none none none none none none none none none none none none none none

def emptyOperation : Operation :=
  { operation_id := none, summary := none, description := none, tags := none,
    parameters := none, request_body := none, responses := [] }

def emptyInfo : Info := { title := "t", version := "1", description := none }

/-- C1 counterexample input: a single GET operation whose one parameter
schema carries a dangling reference, and no components section. -/
def c1Spec : OpenApiSpec :=
  { openapi := "3.0.0"
    info := emptyInfo
    paths := [("/a",
      ⟨[("get",
        { emptyOperation with
            parameters := some
              [{ name := "p", in_ := "query", description := none, required := none,
                 schema := some (refOnlySchema "#/components/schemas/Missing") }] })]⟩)]
    components := none }

/-- The reference string of the first parameter schema of the first
operation of the first path. -/
def firstParamRef (spec : OpenApiSpec) : Option String :=
  match spec.paths with
  | (_, pi) :: _ =>
    match pi.operations with
    | (_, op) :: _ =>
      match op.parameters with
      | some (p :: _) =>
        match p.schema with
        | some s => s.reference
        | none => none
      | _ => none
    | _ => none
  | _ => none

/-- C1 witness input: components with a schema whose property carries a
resolvable reference and whose item schema carries a dangling one. -/
def c1wMap : SchemaMap :=
  .cons "A"
    (.mk none none none
      (some (.cons "x" (refOnlySchema "#/components/schemas/B") .nil))
      (some (refOnlySchema "#/components/schemas/Gone"))
      none none none none none none none none none none none none none)
    (.cons "B" (propsSchema (.cons "u" emptySchema .nil)) .nil)

def c1wSpec : OpenApiSpec :=
  { openapi := "3.0.0", info := emptyInfo, paths := [], components := some ⟨some c1wMap⟩ }

def c1wResolved : OpenApiSpec := (resolve_references 32 c1wSpec).getD c1wSpec

def c1wEntry : Schema := ((specSchemas c1wResolved).get "A").getD emptySchema

/-- C5 counterexample input: `A` references `B` and carries a local
property override; `B` defines fields x and y. -/
def c5Map : SchemaMap :=
  .cons "A"
    (.mk none none none
      (some (.cons "z" emptySchema .nil))
      none none none none none none none none none none none none none
      (some "#/components/schemas/B"))
    (.cons "B" (propsSchema (.cons "x" emptySchema (.cons "y" emptySchema .nil))) .nil)

/-- C5 witness input: as above but `A` leaves its properties unset. -/
def c5wMap : SchemaMap :=
  .cons "A" (refOnlySchema "#/components/schemas/B")
    (.cons "B" (propsSchema (.cons "x" emptySchema (.cons "y" emptySchema .nil))) .nil)

def matcher0 : String → String → Option Int := fun _ _ => none

/-- A FieldData value for concrete app states. -/
def fdWith (t : String) (schemas endpoints : List String) : FieldData :=
  { field_type := t, description := none, schemas := schemas, endpoints := endpoints }

/-- C3 counterexample input: one path with two operations; the filtered
endpoint list on an empty query is the path-name set, not the
endpoint-key set. -/
def c3App : App :=
  { openapi_spec :=
      { openapi := "3.0.0", info := emptyInfo,
        paths := [("/users", ⟨[("get", emptyOperation), ("post", emptyOperation)]⟩)],
        components := none }
    field_index := FieldIndex.new
    current_view := .Fields, current_panel := .Left
    selected_field := none, selected_schema := none, selected_endpoint := none
    search_query := ""
    filtered_fields := [], filtered_schemas := [], filtered_endpoints := []
    should_quit := false, show_help := false, show_endpoint_details := false
    selected_endpoint_for_details := none
    field_list_state := 0, schema_list_state := 0, endpoint_list_state := 0
    file_path := none, should_reload := false, reload_error := none
    is_loading := false, loading_message := "", validation_warnings := [] }

/-- C9 counterexample input: Right panel, a selected field whose
endpoint set (2 keys) is longer than the filtered endpoint list
(1 entry); all cursors start in bounds. -/
def c9App : App :=
  { c3App with
      field_index := { fields := [("f", fdWith "string" [] ["GET /a", "GET /b"])],
                       schemas := .nil, endpoint_fields := [] }
      current_panel := .Right
      selected_field := some "f"
      filtered_endpoints := ["/a"] }

/-- A Left-panel state used by the C9 witness. -/
def c9LeftApp : App :=
  { c3App with
      current_panel := .Left
      filtered_fields := ["a", "b"]
      field_list_state := 0 }

/-- C2 witness input: no file path is associated with the state. -/
def c2App : App := c3App

/-- C6/C7 witness input: schema `User {id, name}` plus a `POST /users`
endpoint whose body mentions `id` and an endpoint-only field `ghost`. -/
def c67Op : Operation :=
  { emptyOperation with
      request_body := some
        { description := none,
          content := [("application/json",
            ⟨some (propsSchema (.cons "id" emptySchema (.cons "ghost" emptySchema .nil)))⟩)] } }

def c67PathItem : PathItem := ⟨[("post", c67Op)]⟩

def c67Map : SchemaMap :=
  .cons "User"
    (propsSchema (.cons "id"
        (.mk (some "integer") none none none none none none none none none none none none none none none none none)
        (.cons "name" emptySchema .nil)))
    .nil

def c67Spec : OpenApiSpec :=
  { openapi := "3.0.0"
    info := emptyInfo
    paths := [("/users", c67PathItem)]
    components := some ⟨some c67Map⟩ }

/-- C4 witness input: an acyclic two-schema reference chain. -/
def c4Map : SchemaMap :=
  .cons "A"
    (.mk none none none
      (some (.cons "x" (refOnlySchema "#/components/schemas/B") .nil))
      none none none none none none none none none none none none none none)
    (.cons "B" (propsSchema (.cons "u" emptySchema .nil)) .nil)

def c4Spec : OpenApiSpec :=
  { openapi := "3.0.0", info := emptyInfo,
    paths := [("/a",
      ⟨[("get",
        { emptyOperation with
            parameters := some
              [{ name := "p", in_ := "query", description := none, required := none,
                 schema := some (refOnlySchema "#/components/schemas/A") }] })]⟩)],
    components := some ⟨some c4Map⟩ }

def c4Rank : String → Nat := fun n => if n = "A" then 1 else 0

/- ---------------------------------------------------------------
   Theorems
   --------------------------------------------------------------- -/

mutual

theorem extract_fields_eq_aux : ∀ s : Schema, extract_fields_from_schema s = s.get_field_names
  | .mk ty fm ds pr it rq ao oo an nt ap nu ro wo ex en df rf => by
    simp only [extract_fields_from_schema, Schema.get_field_names]
    rw [extract_opt_eq_aux it, extract_optList_eq_aux ao, extract_optList_eq_aux oo,
      extract_optList_eq_aux an]

theorem extract_opt_eq_aux : ∀ o : Option Schema, optExtractFields o = optFieldNames o
  | none => rfl
  | some s => by
    simp only [optExtractFields, optFieldNames]
    exact extract_fields_eq_aux s

theorem extract_optList_eq_aux :
    ∀ o : Option SchemaList, optExtractFieldsList o = optFieldNamesList o
  | none => rfl
  | some l => by
    simp only [optExtractFieldsList, optFieldNamesList]
    exact extract_fields_list_eq_aux l

theorem extract_fields_list_eq_aux :
    ∀ l : SchemaList, extract_fields_from_schema_list l = l.get_field_names_list
  | .nil => rfl
  | .cons s rest => by
    simp only [extract_fields_from_schema_list, SchemaList.get_field_names_list]
    rw [extract_fields_eq_aux s, extract_fields_list_eq_aux rest]

end

/-- C10: the indexer's standalone field extractor and the schema
model's own field-name method compute the same list of field names on
every schema value. -/
theorem extract_fields_from_schema_eq_get_field_names (s : Schema) :
    extract_fields_from_schema s = s.get_field_names :=
  extract_fields_eq_aux s

/-- Soundness of the substring test: `containsSub l pat` holds exactly
when `pat` is a contiguous infix of `l`. -/
theorem containsSub_iff (l pat : List Char) : containsSub l pat = true ↔ pat <:+: l := by
  induction l with
  | nil =>
    simp [containsSub, List.isPrefixOf_iff_prefix]
  | cons c rest ih =>
    simp [containsSub, Bool.or_eq_true, List.isPrefixOf_iff_prefix, ih, List.infix_cons_iff]

/-- C8: `is_critical_field` returns true iff the field exists in the
field map and some endpoint key of its endpoint set, lowercased,
contains the substring `post` or `put` — the test runs over the whole
key (method and path); an unknown field name is never critical. -/
theorem is_critical_field_iff (idx : FieldIndex) (f : String) :
    idx.is_critical_field f = true ↔
      ∃ fd, assocGet idx.fields f = some fd ∧
        ∃ e ∈ fd.endpoints,
          "post".data <:+: (strLower e).data ∨ "put".data <:+: (strLower e).data := by
  unfold FieldIndex.is_critical_field
  cases h : assocGet idx.fields f with
  | none => simp
  | some fd =>
    simp [List.any_eq_true, strContains, containsSub_iff]

/-- C2: a reload that fails — the file path is absent, or retrieval /
parsing fails — leaves the document, the whole index, the filtered
lists, the cursors and the selected names unchanged, and records a
non-empty error message as recoverable state (the call returns an
`error` value rather than raising). -/
theorem reload_failure_preserves_state (matcher : String → String → Option Int) (app : App)
    (parse_result : Except String OpenApiSpec)
    (hfail : app.file_path = none ∨ ∃ e, parse_result = .error e) :
    let result := App.reload matcher app parse_result
    result.1.openapi_spec = app.openapi_spec ∧
    result.1.field_index.fields = app.field_index.fields ∧
    result.1.field_index.schemas = app.field_index.schemas ∧
    result.1.field_index.endpoint_fields = app.field_index.endpoint_fields ∧
    result.1.filtered_fields = app.filtered_fields ∧
    result.1.filtered_schemas = app.filtered_schemas ∧
    result.1.filtered_endpoints = app.filtered_endpoints ∧
    result.1.field_list_state = app.field_list_state ∧
    result.1.schema_list_state = app.schema_list_state ∧
    result.1.endpoint_list_state = app.endpoint_list_state ∧
    result.1.selected_field = app.selected_field ∧
    result.1.selected_schema = app.selected_schema ∧
    result.1.selected_endpoint = app.selected_endpoint ∧
    ∃ msg, result.1.reload_error = some msg ∧ msg ≠ "" ∧ result.2 = .error msg := by
  cases hfp : app.file_path with
  | none =>
    simp only [App.reload, hfp]
    exact ⟨trivial, trivial, trivial, trivial, trivial, trivial, trivial, trivial, trivial,
      trivial, trivial, trivial, trivial, "No file path available for reload", rfl,
      by decide, rfl⟩
  | some path =>
    rcases hfail with h | ⟨e, he⟩
    · rw [hfp] at h; cases h
    · subst he
      simp only [App.reload, hfp]
      refine ⟨trivial, trivial, trivial, trivial, trivial, trivial, trivial, trivial, trivial,
        trivial, trivial, trivial, trivial, "Failed to reload: " ++ e, rfl, ?_, rfl⟩
      intro hcontra
      have hlen : ("Failed to reload: " ++ e).length = 0 := by rw [hcontra]; rfl
      rw [String.length_append] at hlen
      have h18 : ("Failed to reload: ").length = 18 := rfl
      omega

/-- C2 witness: a concrete failing reload (no file path) on a concrete
state. -/
theorem reload_failure_witness :
    (c2App.file_path = none ∨ ∃ e, (Except.error "boom" : Except String OpenApiSpec) = .error e) ∧
    ((App.reload matcher0 c2App (.error "boom")).1.openapi_spec = c2App.openapi_spec ∧
      ∃ msg, (App.reload matcher0 c2App (.error "boom")).1.reload_error = some msg ∧ msg ≠ "") := by
  have h := reload_failure_preserves_state matcher0 c2App (.error "boom") (Or.inl rfl)
  exact ⟨Or.inl rfl, h.1, by
    obtain ⟨msg, hm, hne, _⟩ := h.2.2.2.2.2.2.2.2.2.2.2.2.2
    exact ⟨msg, hm, hne⟩⟩

theorem charListLe_cons_iff (a b : Char) (as bs : List Char) :
    charListLe (a :: as) (b :: bs) = true ↔ a < b ∨ (a = b ∧ charListLe as bs = true) := by
  rcases lt_trichotomy a b with h | h | h
  · simp [charListLe, h]
  · subst h
    simp [charListLe, lt_irrefl]
  · have h1 : ¬ a < b := lt_asymm h
    have h2 : a ≠ b := ne_of_gt h
    simp [charListLe, h1, h, h2]

theorem charListLe_total (as bs : List Char) :
    charListLe as bs = true ∨ charListLe bs as = true := by
  induction as generalizing bs with
  | nil => left; rfl
  | cons a as ih =>
    cases bs with
    | nil => right; rfl
    | cons b bs =>
      rcases lt_trichotomy a b with h | h | h
      · left; rw [charListLe_cons_iff]; exact Or.inl h
      · subst h
        rcases ih bs with h | h
        · left; rw [charListLe_cons_iff]; exact Or.inr ⟨rfl, h⟩
        · right; rw [charListLe_cons_iff]; exact Or.inr ⟨rfl, h⟩
      · right; rw [charListLe_cons_iff]; exact Or.inl h

theorem charListLe_trans (as bs cs : List Char) (hab : charListLe as bs = true)
    (hbc : charListLe bs cs = true) : charListLe as cs = true := by
  induction as generalizing bs cs with
  | nil => rfl
  | cons a as ih =>
    cases bs with
    | nil => cases hab
    | cons b bs =>
      cases cs with
      | nil => cases hbc
      | cons c cs =>
        rw [charListLe_cons_iff] at hab hbc ⊢
        rcases hab with h1 | ⟨h1, h1r⟩
        · rcases hbc with h2 | ⟨h2, _⟩
          · exact Or.inl (h1.trans h2)
          · exact Or.inl (h2 ▸ h1)
        · rcases hbc with h2 | ⟨h2, h2r⟩
          · exact Or.inl (h1 ▸ h2)
          · exact Or.inr ⟨h1.trans h2, ih bs cs h1r h2r⟩

instance : IsTotal String strLeRel :=
  ⟨fun a b => charListLe_total a.data b.data⟩

instance : IsTrans String strLeRel :=
  ⟨fun a b c hab hbc => charListLe_trans a.data b.data c.data hab hbc⟩

theorem sortStrings_perm (l : List String) : (sortStrings l).Perm l :=
  List.perm_insertionSort strLeRel l

theorem sortStrings_sorted (l : List String) : (sortStrings l).Sorted strLeRel :=
  List.sorted_insertionSort strLeRel l

theorem update_filters_field_index (matcher : String → String → Option Int) (app : App) :
    (update_filters matcher app).field_index = app.field_index := by
  unfold update_filters
  dsimp only
  split <;> rfl

theorem update_filters_openapi_spec (matcher : String → String → Option Int) (app : App) :
    (update_filters matcher app).openapi_spec = app.openapi_spec := by
  unfold update_filters
  dsimp only
  split <;> rfl

theorem applyQueryEdits_field_index (matcher : String → String → Option Int) (qs : List String)
    (app : App) : (applyQueryEdits matcher qs app).field_index = app.field_index := by
  induction qs generalizing app with
  | nil => rfl
  | cons q qs ih =>
    show (applyQueryEdits matcher qs _).field_index = _
    rw [ih, update_filters_field_index]

theorem applyQueryEdits_openapi_spec (matcher : String → String → Option Int) (qs : List String)
    (app : App) : (applyQueryEdits matcher qs app).openapi_spec = app.openapi_spec := by
  induction qs generalizing app with
  | nil => rfl
  | cons q qs ih =>
    show (applyQueryEdits matcher qs _).openapi_spec = _
    rw [ih, update_filters_openapi_spec]

theorem update_filters_empty_query (matcher : String → String → Option Int) (app : App)
    (hq : app.search_query = "") :
    (update_filters matcher app).filtered_fields = sortStrings (assocKeys app.field_index.fields) ∧
    (update_filters matcher app).filtered_schemas = sortStrings app.field_index.schemas.keys ∧
    (update_filters matcher app).filtered_endpoints
      = sortStrings (assocKeys app.openapi_spec.paths) := by
  unfold update_filters
  rw [if_pos hq]
  exact ⟨rfl, rfl, rfl⟩

/-- C3 (amended): after any sequence of query edits whose last edit
empties the query, each filtered list is a lexicographically-ascending
sorting of the corresponding full name set — the field-map keys, the
schema-map keys, and (amendment forced by the counterexample) the
*path strings* of the document, not the `"<METHOD> <path>"` endpoint
keys. -/
theorem filters_after_empty_query (matcher : String → String → Option Int) (qs : List String)
    (app : App) :
    ((applyQueryEdits matcher (qs ++ [""]) app).filtered_fields.Perm
        (assocKeys app.field_index.fields) ∧
      (applyQueryEdits matcher (qs ++ [""]) app).filtered_fields.Sorted strLeRel) ∧
    ((applyQueryEdits matcher (qs ++ [""]) app).filtered_schemas.Perm
        app.field_index.schemas.keys ∧
      (applyQueryEdits matcher (qs ++ [""]) app).filtered_schemas.Sorted strLeRel) ∧
    ((applyQueryEdits matcher (qs ++ [""]) app).filtered_endpoints.Perm
        (assocKeys app.openapi_spec.paths) ∧
      (applyQueryEdits matcher (qs ++ [""]) app).filtered_endpoints.Sorted strLeRel) := by
  have hsplit : applyQueryEdits matcher (qs ++ [""]) app
      = update_filters matcher { applyQueryEdits matcher qs app with search_query := "" } := by
    unfold applyQueryEdits
    rw [List.foldl_append]
    rfl
  set b := applyQueryEdits matcher qs app with hb
  have hidx : b.field_index = app.field_index := applyQueryEdits_field_index matcher qs app
  have hspec : b.openapi_spec = app.openapi_spec := applyQueryEdits_openapi_spec matcher qs app
  have h := update_filters_empty_query matcher { b with search_query := "" } rfl
  rw [hsplit]
  refine ⟨⟨?_, ?_⟩, ⟨?_, ?_⟩, ⟨?_, ?_⟩⟩
  · rw [h.1]; show (sortStrings (assocKeys b.field_index.fields)).Perm _
    rw [hidx]; exact sortStrings_perm _
  · rw [h.1]; exact sortStrings_sorted _
  · rw [h.2.1]; show (sortStrings b.field_index.schemas.keys).Perm _
    rw [hidx]; exact sortStrings_perm _
  · rw [h.2.1]; exact sortStrings_sorted _
  · rw [h.2.2]; show (sortStrings (assocKeys b.openapi_spec.paths)).Perm _
    rw [hspec]; exact sortStrings_perm _
  · rw [h.2.2]; exact sortStrings_sorted _

/-- C3 counterexample: on a document with `GET /users` and
`POST /users`, the filtered endpoint list after an empty-query
recomputation is the path list `["/users"]` — neither equal to, nor a
permutation of, the endpoint-key set
`{"GET /users", "POST /users"}`. -/
theorem filtered_endpoints_ne_endpoint_keys :
    (update_filters matcher0 c3App).filtered_endpoints
        ≠ sortStrings (endpoint_keys c3App.openapi_spec) ∧
      ¬ (update_filters matcher0 c3App).filtered_endpoints.Perm
          (endpoint_keys c3App.openapi_spec) := by
  have h1 : (update_filters matcher0 c3App).filtered_endpoints = ["/users"] := by decide
  have hlen2 : (endpoint_keys c3App.openapi_spec).length = 2 := by decide
  constructor
  · intro h
    have hl := congrArg List.length h
    rw [h1] at hl
    have hsort := (List.perm_insertionSort strLeRel (endpoint_keys c3App.openapi_spec)).length_eq
    simp only [sortStrings] at hl
    rw [hsort, hlen2] at hl
    cases hl
  · intro h
    have hl := h.length_eq
    rw [h1, hlen2] at hl
    cases hl

theorem clampCursor_inBounds (c : Nat) (l : List String) :
    cursorInBounds (clampCursor c l) l := by
  unfold clampCursor cursorInBounds
  split
  · exact ⟨Nat.zero_le _, fun _ => rfl⟩
  · rename_i he
    refine ⟨min_le_right _ _, fun h0 => ?_⟩
    rw [h0] at he
    simp at he

theorem update_filters_cursors (matcher : String → String → Option Int) (app : App) :
    cursorsInBounds (update_filters matcher app) := by
  unfold update_filters
  dsimp only
  exact ⟨clampCursor_inBounds _ _, clampCursor_inBounds _ _, clampCursor_inBounds _ _⟩

theorem navigate_left_preserves (app : App) (hpanel : app.current_panel = Panel.Left)
    (hb : cursorsInBounds app) :
    cursorsInBounds (navigate_up app) ∧ cursorsInBounds (navigate_down app) := by
  obtain ⟨⟨hf1, hf2⟩, ⟨hs1, hs2⟩, ⟨he1, he2⟩⟩ := hb
  constructor
  · unfold navigate_up
    rw [hpanel]
    cases hv : app.current_view <;> dsimp only
    case Fields =>
      split_ifs with hc
      · refine ⟨⟨?_, fun h0 => ?_⟩, ⟨hs1, hs2⟩, ⟨he1, he2⟩⟩ <;> (try dsimp only at *)
        · omega
        · have := hf2 h0; omega
      · exact ⟨⟨hf1, hf2⟩, ⟨hs1, hs2⟩, ⟨he1, he2⟩⟩
    case Schemas =>
      split_ifs with hc
      · refine ⟨⟨hf1, hf2⟩, ⟨?_, fun h0 => ?_⟩, ⟨he1, he2⟩⟩ <;> (try dsimp only at *)
        · omega
        · have := hs2 h0; omega
      · exact ⟨⟨hf1, hf2⟩, ⟨hs1, hs2⟩, ⟨he1, he2⟩⟩
    case Endpoints =>
      split_ifs with hc
      · refine ⟨⟨hf1, hf2⟩, ⟨hs1, hs2⟩, ⟨?_, fun h0 => ?_⟩⟩ <;> (try dsimp only at *)
        · omega
        · have := he2 h0; omega
      · exact ⟨⟨hf1, hf2⟩, ⟨hs1, hs2⟩, ⟨he1, he2⟩⟩
    case Graph => exact ⟨⟨hf1, hf2⟩, ⟨hs1, hs2⟩, ⟨he1, he2⟩⟩
    case Stats => exact ⟨⟨hf1, hf2⟩, ⟨hs1, hs2⟩, ⟨he1, he2⟩⟩
  · unfold navigate_down
    rw [hpanel]
    cases hv : app.current_view <;> dsimp only
    case Fields =>
      split_ifs with hc
      · refine ⟨⟨?_, fun h0 => ?_⟩, ⟨hs1, hs2⟩, ⟨he1, he2⟩⟩ <;> (try dsimp only at *)
        · omega
        · rw [h0] at hc
          exact absurd hc (by simp)
      · exact ⟨⟨hf1, hf2⟩, ⟨hs1, hs2⟩, ⟨he1, he2⟩⟩
    case Schemas =>
      split_ifs with hc
      · refine ⟨⟨hf1, hf2⟩, ⟨?_, fun h0 => ?_⟩, ⟨he1, he2⟩⟩ <;> (try dsimp only at *)
        · omega
        · rw [h0] at hc
          exact absurd hc (by simp)
      · exact ⟨⟨hf1, hf2⟩, ⟨hs1, hs2⟩, ⟨he1, he2⟩⟩
    case Endpoints =>
      split_ifs with hc
      · refine ⟨⟨hf1, hf2⟩, ⟨hs1, hs2⟩, ⟨?_, fun h0 => ?_⟩⟩ <;> (try dsimp only at *)
        · omega
        · rw [h0] at hc
          exact absurd hc (by simp)
      · exact ⟨⟨hf1, hf2⟩, ⟨hs1, hs2⟩, ⟨he1, he2⟩⟩
    case Graph => exact ⟨⟨hf1, hf2⟩, ⟨hs1, hs2⟩, ⟨he1, he2⟩⟩
    case Stats => exact ⟨⟨hf1, hf2⟩, ⟨hs1, hs2⟩, ⟨he1, he2⟩⟩

theorem navigate_right_saturates (app : App) (f : String)
    (hpanel : app.current_panel = Panel.Right) (hsel : app.selected_field = some f)
    (hbound : app.endpoint_list_state
      ≤ (app.field_index.get_endpoints_for_field f).length - 1) :
    (navigate_up app).endpoint_list_state
        ≤ (app.field_index.get_endpoints_for_field f).length - 1 ∧
    (navigate_down app).endpoint_list_state
        ≤ (app.field_index.get_endpoints_for_field f).length - 1 := by
  constructor
  · unfold navigate_up
    rw [hpanel, hsel]
    dsimp only
    split <;> (try dsimp only) <;> omega
  · unfold navigate_down
    rw [hpanel, hsel]
    dsimp only
    split <;> (try dsimp only) <;> omega

/-- C9 (amended): after every filter recomputation all three cursors
are clamped within the bounds of their filtered lists (0 when empty);
Left-panel Up/Down preserves those bounds, saturating without
wrapping; Right-panel Up/Down saturates at the bounds of the selected
field's endpoint list — which (the correction forced by the
counterexample) may lie beyond the filtered endpoint list's bound. -/
theorem cursor_bounds_amended :
    (∀ (matcher : String → String → Option Int) (app : App),
        cursorsInBounds (update_filters matcher app)) ∧
    (∀ app : App, app.current_panel = Panel.Left → cursorsInBounds app →
        cursorsInBounds (navigate_up app) ∧ cursorsInBounds (navigate_down app)) ∧
    (∀ (app : App) (f : String), app.current_panel = Panel.Right →
        app.selected_field = some f →
        app.endpoint_list_state ≤ (app.field_index.get_endpoints_for_field f).length - 1 →
        (navigate_up app).endpoint_list_state
            ≤ (app.field_index.get_endpoints_for_field f).length - 1 ∧
        (navigate_down app).endpoint_list_state
            ≤ (app.field_index.get_endpoints_for_field f).length - 1) :=
  ⟨update_filters_cursors, navigate_left_preserves, navigate_right_saturates⟩

/-- C9 witness: the amended theorem applied to concrete states — a
filter recomputation, a Left-panel Down step, and a Right-panel Down
step. -/
theorem cursor_bounds_amended_witness :
    cursorsInBounds (update_filters matcher0 c3App) ∧
    cursorsInBounds (navigate_down c9LeftApp) ∧
    (navigate_down c9App).endpoint_list_state
      ≤ (c9App.field_index.get_endpoints_for_field "f").length - 1 :=
  ⟨cursor_bounds_amended.1 matcher0 c3App,
    (cursor_bounds_amended.2.1 c9LeftApp (by decide) (by decide)).2,
    (cursor_bounds_amended.2.2 c9App "f" (by decide) (by decide) (by decide)).2⟩

/-- C9 counterexample: from a state whose cursors are all within the
bounds of their filtered lists, one Right-panel Down step pushes the
endpoint cursor past the filtered endpoint list's bound (the step is
bounded by the selected field's endpoint list instead). -/
theorem cursor_bounds_counterexample :
    cursorsInBounds c9App ∧ ¬ cursorsInBounds (navigate_down c9App) := by
  constructor
  · decide
  · decide

/-- Induction along the spine of a SchemaMap (the mutual recursor is
inconvenient for spine-only recursions). -/
theorem schemaMapSpineInduction {motive : SchemaMap → Prop} (hnil : motive .nil)
    (hcons : ∀ (n : String) (s : Schema) (rest : SchemaMap),
      motive rest → motive (.cons n s rest)) : ∀ m, motive m
  | .nil => hnil
  | .cons n s rest => hcons n s rest (schemaMapSpineInduction hnil hcons rest)

/-- Induction along the spine of a SchemaList. -/
theorem schemaListSpineInduction {motive : SchemaList → Prop} (hnil : motive .nil)
    (hcons : ∀ (s : Schema) (rest : SchemaList), motive rest → motive (.cons s rest)) :
    ∀ l, motive l
  | .nil => hnil
  | .cons s rest => hcons s rest (schemaListSpineInduction hnil hcons rest)

/- Association-list lemmas. -/

theorem assocGet_assocInsert_self {α : Type} (l : List (String × α)) (n : String) (v : α) :
    assocGet (assocInsert l n v) n = some v := by
  induction l with
  | nil => simp [assocInsert, assocGet]
  | cons p rest ih =>
    obtain ⟨k, w⟩ := p
    by_cases hk : k = n
    · subst hk
      simp [assocInsert, assocGet]
    · simp [assocInsert, assocGet, hk, ih]

theorem assocGet_assocInsert_ne {α : Type} (l : List (String × α)) (n : String) (v : α)
    (f : String) (h : n ≠ f) : assocGet (assocInsert l n v) f = assocGet l f := by
  induction l with
  | nil => simp [assocInsert, assocGet, h]
  | cons p rest ih =>
    obtain ⟨k, w⟩ := p
    by_cases hk : k = n
    · subst hk
      simp [assocInsert, assocGet, h, ih]
    · by_cases hkf : k = f
      · subst hkf
        simp [assocInsert, assocGet, hk]
      · simp [assocInsert, assocGet, hk, hkf, ih]

theorem assocInsert_keys_of_get_some {α : Type} (l : List (String × α)) (n : String) (v w : α)
    (h : assocGet l n = some w) : assocKeys (assocInsert l n v) = assocKeys l := by
  induction l with
  | nil => cases h
  | cons p rest ih =>
    obtain ⟨k, u⟩ := p
    by_cases hk : k = n
    · subst hk
      simp [assocInsert, assocKeys]
    · rw [assocGet] at h
      rw [if_neg hk] at h
      simp only [assocInsert, if_neg hk, assocKeys, List.map_cons]
      have := ih h
      rw [assocKeys, assocKeys] at this
      rw [this]

theorem assocGet_eq_none_iff {α : Type} (l : List (String × α)) (f : String) :
    assocGet l f = none ↔ f ∉ assocKeys l := by
  induction l with
  | nil => simp [assocGet, assocKeys]
  | cons p rest ih =>
    obtain ⟨k, u⟩ := p
    by_cases hk : k = f
    · subst hk
      simp [assocGet, assocKeys]
    · simp [assocGet, assocKeys, hk, ih, Ne.symm hk]

/- Endpoint-pass bookkeeping. -/

theorem addEndpointOccurrences_keys (k : String) (names acc : List String)
    (fields : List (String × FieldData)) :
    assocKeys (addEndpointOccurrences k names acc fields).2 = assocKeys fields := by
  induction names generalizing acc fields with
  | nil => rfl
  | cons field rest ih =>
    rw [addEndpointOccurrences]
    cases hg : assocGet fields field with
    | none => rw [ih]
    | some data =>
      rw [ih, assocInsert_keys_of_get_some _ _ _ _ hg]

theorem addEndpointOccurrences_acc (k : String) (names acc : List String)
    (fields : List (String × FieldData)) :
    (addEndpointOccurrences k names acc fields).1 = acc ++ names := by
  induction names generalizing acc fields with
  | nil => simp [addEndpointOccurrences]
  | cons field rest ih =>
    rw [addEndpointOccurrences]
    cases hg : assocGet fields field with
    | none => rw [ih]; simp
    | some data => rw [ih]; simp

theorem paramFieldsPass_keys (k : String) (ps : List Parameter) (acc : List String)
    (fields : List (String × FieldData)) :
    assocKeys (paramFieldsPass k ps acc fields).2 = assocKeys fields := by
  induction ps generalizing acc fields with
  | nil => rfl
  | cons p rest ih =>
    rw [paramFieldsPass]
    cases p.schema with
    | none => rw [ih]
    | some schema => rw [ih, addEndpointOccurrences_keys]

theorem paramFieldsPass_acc (k : String) (ps : List Parameter) (acc : List String)
    (fields : List (String × FieldData)) :
    (paramFieldsPass k ps acc fields).1
      = acc ++ ps.flatMap
          (fun p => match p.schema with
                    | none => []
                    | some s => extract_fields_from_schema s) := by
  induction ps generalizing acc fields with
  | nil => simp [paramFieldsPass]
  | cons p rest ih =>
    rw [paramFieldsPass]
    cases hp : p.schema with
    | none => rw [ih]; simp [hp]
    | some schema =>
      rw [ih]
      rw [addEndpointOccurrences_acc]
      simp [hp]

theorem contentFieldsPass_keys (k : String) (cs : List (String × MediaType)) (acc : List String)
    (fields : List (String × FieldData)) :
    assocKeys (contentFieldsPass k cs acc fields).2 = assocKeys fields := by
  induction cs generalizing acc fields with
  | nil => rfl
  | cons ct rest ih =>
    rw [contentFieldsPass]
    cases ct.2.schema with
    | none => rw [ih]
    | some schema => rw [ih, addEndpointOccurrences_keys]

theorem contentFieldsPass_acc (k : String) (cs : List (String × MediaType)) (acc : List String)
    (fields : List (String × FieldData)) :
    (contentFieldsPass k cs acc fields).1
      = acc ++ cs.flatMap
          (fun ct => match ct.2.schema with
                     | none => []
                     | some s => extract_fields_from_schema s) := by
  induction cs generalizing acc fields with
  | nil => simp [contentFieldsPass]
  | cons ct rest ih =>
    rw [contentFieldsPass]
    cases hp : ct.2.schema with
    | none => rw [ih]; simp [hp]
    | some schema =>
      rw [ih, addEndpointOccurrences_acc]
      simp [hp]

theorem responsesFieldsPass_keys (k : String) (rs : List (String × Response)) (acc : List String)
    (fields : List (String × FieldData)) :
    assocKeys (responsesFieldsPass k rs acc fields).2 = assocKeys fields := by
  induction rs generalizing acc fields with
  | nil => rfl
  | cons resp rest ih =>
    rw [responsesFieldsPass]
    cases resp.2.content with
    | none => rw [ih]
    | some content => rw [ih, contentFieldsPass_keys]

theorem responsesFieldsPass_acc (k : String) (rs : List (String × Response)) (acc : List String)
    (fields : List (String × FieldData)) :
    (responsesFieldsPass k rs acc fields).1
      = acc ++ rs.flatMap
          (fun resp =>
            match resp.2.content with
            | none => []
            | some content =>
              content.flatMap
                (fun ct => match ct.2.schema with
                           | none => []
                           | some s => extract_fields_from_schema s)) := by
  induction rs generalizing acc fields with
  | nil => simp [responsesFieldsPass]
  | cons resp rest ih =>
    rw [responsesFieldsPass]
    cases hp : resp.2.content with
    | none => rw [ih]; simp [hp]
    | some content =>
      rw [ih, contentFieldsPass_acc]
      simp [hp]

theorem opFields_keys (k : String) (op : Operation) (fields : List (String × FieldData)) :
    assocKeys (opFields k op fields).2 = assocKeys fields := by
  unfold opFields
  cases op.parameters <;> cases op.request_body <;>
    simp only [responsesFieldsPass_keys, contentFieldsPass_keys, paramFieldsPass_keys]

theorem opFields_acc (k : String) (op : Operation) (fields : List (String × FieldData)) :
    (opFields k op fields).1 = opExtractFields op := by
  unfold opFields opExtractFields
  cases op.parameters <;> cases op.request_body <;>
    simp only [responsesFieldsPass_acc, contentFieldsPass_acc, paramFieldsPass_acc,
      List.nil_append, List.append_assoc]

theorem opsPass_fields_keys (path : String) (ops : List (String × Operation)) (index : FieldIndex) :
    assocKeys (opsPass path ops index).fields = assocKeys index.fields := by
  induction ops generalizing index with
  | nil => rfl
  | cons mo rest ih =>
    obtain ⟨method, operation⟩ := mo
    rw [opsPass, ih]
    exact opFields_keys _ _ _

theorem endpointPass_fields_keys (paths : List (String × PathItem)) (index : FieldIndex) :
    assocKeys (endpointPass paths index).fields = assocKeys index.fields := by
  induction paths generalizing index with
  | nil => rfl
  | cons pp rest ih =>
    obtain ⟨path, path_item⟩ := pp
    rw [endpointPass, ih, opsPass_fields_keys]

theorem opsPass_endpoint_untouched (path : String) (ops : List (String × Operation))
    (index : FieldIndex) (K : String)
    (h : K ∉ ops.map (fun mo => endpointKey mo.1 path)) :
    assocGet (opsPass path ops index).endpoint_fields K = assocGet index.endpoint_fields K := by
  induction ops generalizing index with
  | nil => rfl
  | cons mo rest ih =>
    obtain ⟨method, operation⟩ := mo
    simp only [List.map_cons, List.mem_cons, not_or] at h
    rw [opsPass, ih _ h.2]
    exact assocGet_assocInsert_ne _ _ _ _ (fun he => h.1 he.symm)

theorem endpointPass_endpoint_untouched (paths : List (String × PathItem)) (index : FieldIndex)
    (K : String)
    (h : K ∉ paths.flatMap (fun pp => pp.2.operations.map (fun mo => endpointKey mo.1 pp.1))) :
    assocGet (endpointPass paths index).endpoint_fields K
      = assocGet index.endpoint_fields K := by
  induction paths generalizing index with
  | nil => rfl
  | cons pp rest ih =>
    obtain ⟨path, path_item⟩ := pp
    simp only [List.flatMap_cons, List.mem_append, not_or] at h
    rw [endpointPass, ih _ h.2, opsPass_endpoint_untouched _ _ _ _ h.1]

theorem opsPass_endpoint_get (path : String) (ops : List (String × Operation))
    (index : FieldIndex) (method : String) (op : Operation)
    (hmem : (method, op) ∈ ops)
    (hnd : (ops.map (fun mo => endpointKey mo.1 path)).Nodup) :
    assocGet (opsPass path ops index).endpoint_fields (endpointKey method path)
      = some (opExtractFields op) := by
  induction ops generalizing index with
  | nil => cases hmem
  | cons mo rest ih =>
    obtain ⟨m0, op0⟩ := mo
    simp only [List.map_cons, List.nodup_cons] at hnd
    rcases List.mem_cons.mp hmem with heq | hmem2
    · obtain ⟨hm, hop⟩ := Prod.mk.injEq .. ▸ heq
      cases heq
      rw [opsPass, opsPass_endpoint_untouched _ _ _ _ hnd.1]
      rw [opFields_acc]
      exact assocGet_assocInsert_self _ _ _
    · rw [opsPass]
      exact ih _ hmem2 hnd.2

theorem endpointPass_endpoint_get (paths : List (String × PathItem)) (index : FieldIndex)
    (path : String) (pi : PathItem) (method : String) (op : Operation)
    (hpath : (path, pi) ∈ paths) (hop : (method, op) ∈ pi.operations)
    (hnd : (paths.flatMap (fun pp => pp.2.operations.map (fun mo => endpointKey mo.1 pp.1))).Nodup) :
    assocGet (endpointPass paths index).endpoint_fields (endpointKey method path)
      = some (opExtractFields op) := by
  induction paths generalizing index with
  | nil => cases hpath
  | cons pp rest ih =>
    obtain ⟨p0, pi0⟩ := pp
    simp only [List.flatMap_cons, List.nodup_append] at hnd
    rcases List.mem_cons.mp hpath with heq | hmem2
    · cases heq
      rw [endpointPass]
      have hk : endpointKey method path
          ∈ pi.operations.map (fun mo => endpointKey mo.1 path) := by
        exact List.mem_map.mpr ⟨(method, op), hop, rfl⟩
      rw [endpointPass_endpoint_untouched _ _ _ (fun hmem => hnd.2.2 hk hmem)]
      exact opsPass_endpoint_get _ _ _ _ _ hop hnd.1
    · rw [endpointPass]
      exact ih _ hmem2 hnd.2.1

/- Schema-pass bookkeeping: only schema-defined names enter the field
map. -/

theorem addSchemaFields_get_notmem (schema_name : String) (schema : Schema)
    (names : List String) (fields : List (String × FieldData)) (f : String)
    (h : f ∉ names) :
    assocGet (addSchemaFields schema_name schema names fields) f = assocGet fields f := by
  induction names generalizing fields with
  | nil => rfl
  | cons field rest ih =>
    simp only [List.mem_cons, not_or] at h
    rw [addSchemaFields, ih _ h.2]
    exact assocGet_assocInsert_ne _ _ _ _ (fun he => h.1 he.symm)

theorem schemaPass_get_notmem (schemas : SchemaMap) :
    ∀ (index : FieldIndex) (f : String),
      f ∉ schemas.toList.flatMap (fun p => p.2.get_field_names) →
      assocGet (schemaPass schemas index).fields f = assocGet index.fields f := by
  induction schemas using schemaMapSpineInduction with
  | hnil => intro index f h; rfl
  | hcons schema_name schema rest ih =>
    intro index f h
    simp only [SchemaMap.toList, List.flatMap_cons, List.mem_append, not_or] at h
    rw [schemaPass, ih _ _ h.2]
    exact addSchemaFields_get_notmem _ _ _ _ _ h.1

/-- C6: in the built index, a field name that never occurs in a named
component schema has no entry in the field map, even when it occurs in
endpoint operation schemas; each of its occurrences is still appended
to the owning endpoint's list in `endpoint_fields` (the entry for an
endpoint key is exactly the concatenated occurrence list of its
operation); and the endpoint pass adds no field-map entries at all, so
an endpoint key can reach a field's endpoint set only if the schema
pass already created that field. -/
theorem endpoint_only_fields_invisible (spec : OpenApiSpec) (f : String)
    (path : String) (pi : PathItem) (method : String) (op : Operation)
    (hpath : (path, pi) ∈ spec.paths) (hop : (method, op) ∈ pi.operations)
    (hnd : (spec.paths.flatMap
      (fun pp => pp.2.operations.map (fun mo => endpointKey mo.1 pp.1))).Nodup)
    (hf : f ∉ allSchemaFieldNames spec) :
    assocGet (build_field_index spec).fields f = none ∧
    assocGet (build_field_index spec).endpoint_fields (endpointKey method path)
      = some (opExtractFields op) ∧
    assocKeys (build_field_index spec).fields = assocKeys (schema_pass_index spec).fields := by
  have hbuild : build_field_index spec = endpointPass spec.paths (schema_pass_index spec) := rfl
  refine ⟨?_, ?_, ?_⟩
  · rw [hbuild]
    rw [assocGet_eq_none_iff, endpointPass_fields_keys, ← assocGet_eq_none_iff]
    unfold schema_pass_index allSchemaFieldNames at *
    rw [schemaPass_get_notmem _ _ _ hf]
    rfl
  · rw [hbuild]
    exact endpointPass_endpoint_get _ _ _ _ _ _ hpath hop hnd
  · rw [hbuild]
    exact endpointPass_fields_keys _ _

/-- C6 witness: on the concrete document, `ghost` occurs only in the
`POST /users` request body: it has no field-map entry while the
endpoint's occurrence list contains it. -/
theorem endpoint_only_fields_invisible_witness :
    assocGet (build_field_index c67Spec).fields "ghost" = none ∧
    assocGet (build_field_index c67Spec).endpoint_fields (endpointKey "post" "/users")
      = some (opExtractFields c67Op) ∧
    assocKeys (build_field_index c67Spec).fields = assocKeys (schema_pass_index c67Spec).fields :=
  endpoint_only_fields_invisible c67Spec "ghost" "/users" c67PathItem "post" c67Op
    (List.mem_cons_self _ _) (List.mem_cons_self _ _) (by decide) (by decide)

/- Metadata tracking: the endpoint pass never changes a field's type,
description or owning-schema list. -/

def metaOf (fd : FieldData) : String × Option String × List String :=
  (fd.field_type, fd.description, fd.schemas)

theorem assocInsert_meta (l : List (String × FieldData)) (n : String) (v w : FieldData)
    (hget : assocGet l n = some w) (hmeta : metaOf v = metaOf w) (f : String) :
    (assocGet (assocInsert l n v) f).map metaOf = (assocGet l f).map metaOf := by
  by_cases hf : n = f
  · subst hf
    rw [assocGet_assocInsert_self, hget]
    simp [hmeta]
  · rw [assocGet_assocInsert_ne _ _ _ _ hf]

theorem addEndpointOccurrences_meta (k : String) (names acc : List String)
    (fields : List (String × FieldData)) (f : String) :
    (assocGet (addEndpointOccurrences k names acc fields).2 f).map metaOf
      = (assocGet fields f).map metaOf := by
  induction names generalizing acc fields with
  | nil => rfl
  | cons field rest ih =>
    cases hg : assocGet fields field with
    | none => rw [addEndpointOccurrences, hg]; exact ih _ _
    | some data =>
      rw [addEndpointOccurrences, hg]
      dsimp only
      rw [ih]
      exact assocInsert_meta fields field
        { data with endpoints := insertEndpointSet data.endpoints k } data hg rfl f

theorem paramFieldsPass_meta (k : String) (ps : List Parameter) (acc : List String)
    (fields : List (String × FieldData)) (f : String) :
    (assocGet (paramFieldsPass k ps acc fields).2 f).map metaOf
      = (assocGet fields f).map metaOf := by
  induction ps generalizing acc fields with
  | nil => rfl
  | cons p rest ih =>
    rw [paramFieldsPass]
    cases p.schema with
    | none => rw [ih]
    | some schema => rw [ih, addEndpointOccurrences_meta]

theorem contentFieldsPass_meta (k : String) (cs : List (String × MediaType)) (acc : List String)
    (fields : List (String × FieldData)) (f : String) :
    (assocGet (contentFieldsPass k cs acc fields).2 f).map metaOf
      = (assocGet fields f).map metaOf := by
  induction cs generalizing acc fields with
  | nil => rfl
  | cons ct rest ih =>
    rw [contentFieldsPass]
    cases ct.2.schema with
    | none => rw [ih]
    | some schema => rw [ih, addEndpointOccurrences_meta]

theorem responsesFieldsPass_meta (k : String) (rs : List (String × Response)) (acc : List String)
    (fields : List (String × FieldData)) (f : String) :
    (assocGet (responsesFieldsPass k rs acc fields).2 f).map metaOf
      = (assocGet fields f).map metaOf := by
  induction rs generalizing acc fields with
  | nil => rfl
  | cons resp rest ih =>
    rw [responsesFieldsPass]
    cases resp.2.content with
    | none => rw [ih]
    | some content => rw [ih, contentFieldsPass_meta]

theorem opFields_meta (k : String) (op : Operation) (fields : List (String × FieldData))
    (f : String) :
    (assocGet (opFields k op fields).2 f).map metaOf = (assocGet fields f).map metaOf := by
  unfold opFields
  cases op.parameters <;> cases op.request_body <;>
    simp only [responsesFieldsPass_meta, contentFieldsPass_meta, paramFieldsPass_meta]

theorem opsPass_meta (path : String) (ops : List (String × Operation)) (index : FieldIndex)
    (f : String) :
    (assocGet (opsPass path ops index).fields f).map metaOf
      = (assocGet index.fields f).map metaOf := by
  induction ops generalizing index with
  | nil => rfl
  | cons mo rest ih =>
    obtain ⟨method, operation⟩ := mo
    rw [opsPass, ih]
    exact opFields_meta _ _ _ _

theorem endpointPass_meta (paths : List (String × PathItem)) (index : FieldIndex) (f : String) :
    (assocGet (endpointPass paths index).fields f).map metaOf
      = (assocGet index.fields f).map metaOf := by
  induction paths generalizing index with
  | nil => rfl
  | cons pp rest ih =>
    obtain ⟨path, path_item⟩ := pp
    rw [endpointPass, ih, opsPass_meta]

/- Schema-pass tracking of one field's entry. -/

theorem addSchemaFields_tracked_some (n : String) (s : Schema) (f : String)
    (names : List String) (fields : List (String × FieldData)) (fd : FieldData)
    (hmem : f ∈ names) (hget : assocGet fields f = some fd) :
    assocGet (addSchemaFields n s names fields) f
      = some { fd with
          schemas := if fd.schemas.contains n then fd.schemas else fd.schemas ++ [n] } := by
  induction names generalizing fields fd with
  | nil => cases hmem
  | cons field rest ih =>
    rw [addSchemaFields]
    by_cases hf : field = f
    · subst hf
      rw [hget]
      dsimp only
      by_cases hc : fd.schemas.contains n
      · have hcm : n ∈ fd.schemas := List.elem_iff.mp hc
        by_cases hrest : field ∈ rest
        · rw [ih _ _ hrest (assocGet_assocInsert_self _ _ _)]
          simp [hc, hcm]
        · rw [addSchemaFields_get_notmem _ _ _ _ _ hrest, assocGet_assocInsert_self]
          simp [hc, hcm]
      · have hcm : n ∉ fd.schemas := fun h => hc (List.elem_iff.mpr h)
        by_cases hrest : field ∈ rest
        · rw [ih _ _ hrest (assocGet_assocInsert_self _ _ _)]
          have hcm2 : n ∈ fd.schemas ++ [n] :=
            List.mem_append_right _ (List.mem_singleton_self n)
          simp [hc, hcm, hcm2]
        · rw [addSchemaFields_get_notmem _ _ _ _ _ hrest, assocGet_assocInsert_self]
          simp [hc, hcm]
    · have hrest : f ∈ rest := by
        rcases List.mem_cons.mp hmem with h | h
        · exact absurd h.symm hf
        · exact h
      have hget2 : ∀ d, assocGet (assocInsert fields field d) f = some fd :=
        fun d => (assocGet_assocInsert_ne _ _ _ _ hf).trans hget
      exact ih _ _ hrest (hget2 _)

theorem addSchemaFields_tracked_none (n : String) (s : Schema) (f : String)
    (names : List String) (fields : List (String × FieldData))
    (hmem : f ∈ names) (hget : assocGet fields f = none) :
    assocGet (addSchemaFields n s names fields) f
      = some { field_type := (s.get_field_type f).getD "unknown"
               description := s.get_field_description f
               schemas := [n]
               endpoints := [] } := by
  induction names generalizing fields with
  | nil => cases hmem
  | cons field rest ih =>
    rw [addSchemaFields]
    by_cases hf : field = f
    · subst hf
      rw [hget]
      dsimp only
      have hnil : (([] : List String).contains n) = false := rfl
      by_cases hrest : field ∈ rest
      · rw [addSchemaFields_tracked_some n s field rest _ _ hrest
          (assocGet_assocInsert_self _ _ _)]
        have hcm : n ∈ ([] : List String) ++ [n] :=
          List.mem_append_right _ (List.mem_singleton_self n)
        simp [hnil, hcm]
      · rw [addSchemaFields_get_notmem _ _ _ _ _ hrest]
        rw [assocGet_assocInsert_self]
        simp [hnil]
    · have hrest : f ∈ rest := by
        rcases List.mem_cons.mp hmem with h | h
        · exact absurd h.symm hf
        · exact h
      exact ih _ hrest ((assocGet_assocInsert_ne _ _ _ _ hf).trans hget)

theorem SchemaMap.keys_eq_toList_map (m : SchemaMap) : m.toList.map Prod.fst = m.keys := by
  induction m using schemaMapSpineInduction with
  | hnil => rfl
  | hcons n s rest ih => simp only [SchemaMap.toList, List.map_cons, SchemaMap.keys, ih]

theorem definingNames_nodup (m : SchemaMap) (f : String) (hnd : m.keys.Nodup) :
    (definingNames m f).Nodup := by
  have hsub : ((m.toList.filter (fun p => p.2.get_field_names.contains f)).map Prod.fst).Sublist
      (m.toList.map Prod.fst) := (List.filter_sublist _).map _
  rw [SchemaMap.keys_eq_toList_map] at hsub
  exact hnd.sublist hsub

theorem definingNames_cons_pos (k : String) (sk : Schema) (rest : SchemaMap) (f : String)
    (hdef : sk.get_field_names.contains f = true) :
    definingNames (.cons k sk rest) f = k :: definingNames rest f := by
  have hm : f ∈ sk.get_field_names := List.elem_iff.mp hdef
  unfold definingNames
  simp [SchemaMap.toList, List.filter_cons, hm]

theorem definingNames_cons_neg (k : String) (sk : Schema) (rest : SchemaMap) (f : String)
    (hdef : sk.get_field_names.contains f = false) :
    definingNames (.cons k sk rest) f = definingNames rest f := by
  have hm : f ∉ sk.get_field_names := by
    intro h
    have hb : sk.get_field_names.contains f = true := List.elem_iff.mpr h
    rw [hdef] at hb
    cases hb
  unfold definingNames
  simp [SchemaMap.toList, List.filter_cons, hm]

theorem schemaPass_tracked_some (f : String) (m : SchemaMap) :
    ∀ (index : FieldIndex) (fd : FieldData),
      assocGet index.fields f = some fd →
      (∀ k ∈ m.keys, k ∉ fd.schemas) → m.keys.Nodup →
      assocGet (schemaPass m index).fields f
        = some { fd with schemas := fd.schemas ++ definingNames m f } := by
  induction m using schemaMapSpineInduction with
  | hnil =>
    intro index fd hget _ _
    rw [schemaPass, hget]
    simp [definingNames, SchemaMap.toList]
  | hcons k sk rest ih =>
    intro index fd hget hdisj hnd
    rw [schemaPass]
    dsimp only
    simp only [SchemaMap.keys, List.nodup_cons] at hnd
    cases hdef : sk.get_field_names.contains f with
    | false =>
      have hnotin : f ∉ sk.get_field_names := by
        intro h
        have hb : sk.get_field_names.contains f = true := List.elem_iff.mpr h
        rw [hdef] at hb
        cases hb
      have hstep : assocGet (addSchemaFields k sk sk.get_field_names index.fields) f
          = some fd := by
        rw [addSchemaFields_get_notmem _ _ _ _ _ hnotin]
        exact hget
      rw [ih _ _ hstep (fun k2 hk2 => hdisj k2 (List.mem_cons_of_mem _ hk2)) hnd.2,
        definingNames_cons_neg _ _ _ _ hdef]
    | true =>
      have hin : f ∈ sk.get_field_names := List.elem_iff.mp hdef
      have hknotin : k ∉ fd.schemas := hdisj k (List.mem_cons_self _ _)
      have hkc : ¬ fd.schemas.contains k = true := fun h => hknotin (List.elem_iff.mp h)
      have hstep := addSchemaFields_tracked_some k sk f sk.get_field_names index.fields fd hin hget
      rw [if_neg hkc] at hstep
      have hdisj2 : ∀ k2 ∈ rest.keys, k2 ∉ fd.schemas ++ [k] := by
        intro k2 hk2 hmem
        rcases List.mem_append.mp hmem with h | h
        · exact hdisj k2 (List.mem_cons_of_mem _ hk2) h
        · rw [List.mem_singleton] at h
          exact hnd.1 (h ▸ hk2)
      rw [ih _ _ hstep hdisj2 hnd.2, definingNames_cons_pos _ _ _ _ hdef]
      simp

theorem schemaPass_tracked_none (f : String) (m : SchemaMap) :
    ∀ (index : FieldIndex) (n₀ : String) (s₀ : Schema),
      assocGet index.fields f = none → m.keys.Nodup →
      firstDefining m f = some (n₀, s₀) →
      assocGet (schemaPass m index).fields f
        = some { field_type := (s₀.get_field_type f).getD "unknown"
                 description := s₀.get_field_description f
                 schemas := definingNames m f
                 endpoints := [] } := by
  induction m using schemaMapSpineInduction with
  | hnil => intro index n₀ s₀ _ _ hfirst; cases hfirst
  | hcons k sk rest ih =>
    intro index n₀ s₀ hget hnd hfirst
    rw [schemaPass]
    dsimp only
    simp only [SchemaMap.keys, List.nodup_cons] at hnd
    cases hdef : sk.get_field_names.contains f with
    | false =>
      have hnotin : f ∉ sk.get_field_names := by
        intro h
        have hb : sk.get_field_names.contains f = true := List.elem_iff.mpr h
        rw [hdef] at hb
        cases hb
      have hfirst2 : firstDefining rest f = some (n₀, s₀) := by
        unfold firstDefining at hfirst
        simp only [SchemaMap.toList] at hfirst
        rw [List.find?_cons_of_neg _ (by simp [hnotin])] at hfirst
        exact hfirst
      have hstep : assocGet (addSchemaFields k sk sk.get_field_names index.fields) f
          = none := by
        rw [addSchemaFields_get_notmem _ _ _ _ _ hnotin]
        exact hget
      rw [ih _ _ _ hstep hnd.2 hfirst2, definingNames_cons_neg _ _ _ _ hdef]
    | true =>
      have hin : f ∈ sk.get_field_names := List.elem_iff.mp hdef
      have hfirst2 : (n₀, s₀) = (k, sk) := by
        unfold firstDefining at hfirst
        simp only [SchemaMap.toList] at hfirst
        rw [List.find?_cons_of_pos _ (by simp [hin])] at hfirst
        exact (Option.some.inj hfirst).symm
      cases hfirst2
      have hstep := addSchemaFields_tracked_none k sk f sk.get_field_names index.fields hin hget
      have hdisj2 : ∀ k2 ∈ rest.keys, k2 ∉ ([k] : List String) := by
        intro k2 hk2 hmem
        rw [List.mem_singleton] at hmem
        exact hnd.1 (hmem ▸ hk2)
      rw [schemaPass_tracked_some f rest _ _ hstep hdisj2 hnd.2,
        definingNames_cons_pos _ _ _ _ hdef]
      simp

/-- C7: the FieldData of a field is created at its first defining
named schema — type from that schema's direct property definition
(defaulting to the literal "unknown"), description likewise — and
later defining schemas never overwrite them; the owning-schema list
collects every defining schema's name exactly once. -/
theorem first_write_wins (spec : OpenApiSpec) (f n₀ : String) (s₀ : Schema)
    (hnd : (specSchemas spec).keys.Nodup)
    (hfirst : firstDefining (specSchemas spec) f = some (n₀, s₀)) :
    ∃ fd, assocGet (build_field_index spec).fields f = some fd ∧
      fd.field_type = (s₀.get_field_type f).getD "unknown" ∧
      fd.description = s₀.get_field_description f ∧
      fd.schemas = definingNames (specSchemas spec) f ∧
      fd.schemas.Nodup := by
  have hsp := schemaPass_tracked_none f (specSchemas spec) FieldIndex.new n₀ s₀ rfl hnd hfirst
  have hmeta := endpointPass_meta spec.paths (schema_pass_index spec) f
  have hspi : (schema_pass_index spec).fields
      = (schemaPass (specSchemas spec) FieldIndex.new).fields := rfl
  rw [hspi, hsp] at hmeta
  have hbuild : (build_field_index spec).fields
      = (endpointPass spec.paths (schema_pass_index spec)).fields := rfl
  cases hb : assocGet (build_field_index spec).fields f with
  | none =>
    rw [hbuild] at hb
    rw [hb] at hmeta
    cases hmeta
  | some fd =>
    rw [hbuild] at hb
    rw [hb] at hmeta
    have hm := Option.some.inj hmeta
    unfold metaOf at hm
    have h1 := congrArg Prod.fst hm
    have h2 := congrArg (fun p => p.2.1) hm
    have h3 := congrArg (fun p => p.2.2) hm
    dsimp at h1 h2 h3
    exact ⟨fd, hb ▸ rfl, h1, h2, h3, h3 ▸ definingNames_nodup _ _ hnd⟩

/-- C7 witness: on the concrete document, the `id` field's metadata
comes from the `User` schema and `User` appears once in its
owning-schema list. -/
theorem first_write_wins_witness :
    ∃ fd, assocGet (build_field_index c67Spec).fields "id" = some fd ∧
      fd.field_type = ((c67Map.get "User").getD emptySchema |>.get_field_type "id").getD "unknown" ∧
      fd.description = ((c67Map.get "User").getD emptySchema |>.get_field_description "id") ∧
      fd.schemas = definingNames (specSchemas c67Spec) "id" ∧
      fd.schemas.Nodup := by
  have h := first_write_wins c67Spec "id" "User" ((c67Map.get "User").getD emptySchema)
    (by decide) rfl
  exact h

/- Option-traversal characterizations used by the resolver proofs. -/

theorem optMapM_none_eq {α β : Type} (f : α → Option β) : optMapM f none = some none := rfl

theorem optMapM_some_eq_some {α β : Type} (f : α → Option β) (x : α) (y : Option β) :
    optMapM f (some x) = some y ↔ ∃ z, f x = some z ∧ y = some z := by
  unfold optMapM
  cases hf : f x with
  | none => simp [hf]
  | some z => simp [hf, eq_comm]

theorem mapValuesM_cons_eq_some (f : Schema → Option Schema) (n : String) (s : Schema)
    (rest : SchemaMap) (m' : SchemaMap) :
    SchemaMap.mapValuesM f (.cons n s rest) = some m' ↔
      ∃ s2 rest2, f s = some s2 ∧ SchemaMap.mapValuesM f rest = some rest2 ∧
        m' = .cons n s2 rest2 := by
  rw [SchemaMap.mapValuesM]
  cases hf : f s with
  | none => simp
  | some s2 =>
    cases hr : SchemaMap.mapValuesM f rest with
    | none => simp
    | some rest2 => simp [Option.bind, eq_comm]

theorem schemaListMapM_cons_eq_some (f : Schema → Option Schema) (s : Schema)
    (rest : SchemaList) (l' : SchemaList) :
    SchemaList.mapM f (.cons s rest) = some l' ↔
      ∃ s2 rest2, f s = some s2 ∧ SchemaList.mapM f rest = some rest2 ∧
        l' = .cons s2 rest2 := by
  rw [SchemaList.mapM]
  cases hf : f s with
  | none => simp
  | some s2 =>
    cases hr : SchemaList.mapM f rest with
    | none => simp
    | some rest2 => simp [Option.bind, eq_comm]

theorem mapOptionList_cons_eq_some {α β : Type} (f : α → Option β) (x : α) (rest : List α)
    (l' : List β) :
    mapOptionList f (x :: rest) = some l' ↔
      ∃ y rest2, f x = some y ∧ mapOptionList f rest = some rest2 ∧ l' = y :: rest2 := by
  rw [mapOptionList]
  cases hf : f x with
  | none => simp
  | some y =>
    cases hr : mapOptionList f rest with
    | none => simp
    | some rest2 => simp [Option.bind, eq_comm]

theorem mapValuesM_keys (f : Schema → Option Schema) (m : SchemaMap) :
    ∀ m', SchemaMap.mapValuesM f m = some m' → m'.keys = m.keys := by
  induction m using schemaMapSpineInduction with
  | hnil => intro m' h; cases h; rfl
  | hcons n s rest ih =>
    intro m' h
    obtain ⟨s2, rest2, _, hrest, rfl⟩ := (mapValuesM_cons_eq_some f n s rest m').mp h
    simp only [SchemaMap.keys, ih rest2 hrest]

theorem resolveStep_mk_eq_some (ty fm ds : Option String) (pr : Option SchemaMap)
    (it : Option Schema) (rq : Option (List String)) (ao oo an : Option SchemaList)
    (nt ap : Option Schema) (nu ro wo : Option Bool) (ex : Option Json) (en : Option JsonList)
    (df : Option Json) (rf : Option String) (f : Schema → Option Schema) (s' : Schema) :
    resolveStep (.mk ty fm ds pr it rq ao oo an nt ap nu ro wo ex en df rf) f = some s' ↔
      ∃ pr2 it2 ao2 oo2 an2,
        optMapM (SchemaMap.mapValuesM f) pr = some pr2 ∧
        optMapM f it = some it2 ∧
        optMapM (SchemaList.mapM f) ao = some ao2 ∧
        optMapM (SchemaList.mapM f) oo = some oo2 ∧
        optMapM (SchemaList.mapM f) an = some an2 ∧
        s' = .mk ty fm ds pr2 it2 rq ao2 oo2 an2 nt ap nu ro wo ex en df rf := by
  rw [resolveStep]
  cases h1 : optMapM (SchemaMap.mapValuesM f) pr with
  | none => simp
  | some pr2 =>
    cases h2 : optMapM f it with
    | none => simp
    | some it2 =>
      cases h3 : optMapM (SchemaList.mapM f) ao with
      | none => simp
      | some ao2 =>
        cases h4 : optMapM (SchemaList.mapM f) oo with
        | none => simp
        | some oo2 =>
          cases h5 : optMapM (SchemaList.mapM f) an with
          | none => simp
          | some an2 => simp [Option.bind, eq_comm]

theorem paramStep_mk_eq_some (ty fm ds : Option String) (pr : Option SchemaMap)
    (it : Option Schema) (rq : Option (List String)) (ao oo an : Option SchemaList)
    (nt ap : Option Schema) (nu ro wo : Option Bool) (ex : Option Json) (en : Option JsonList)
    (df : Option Json) (rf : Option String) (f : Schema → Option Schema) (s' : Schema) :
    paramStep (.mk ty fm ds pr it rq ao oo an nt ap nu ro wo ex en df rf) f = some s' ↔
      ∃ pr2 it2,
        optMapM (SchemaMap.mapValuesM f) pr = some pr2 ∧
        optMapM f it = some it2 ∧
        s' = .mk ty fm ds pr2 it2 rq ao oo an nt ap nu ro wo ex en df rf := by
  rw [paramStep]
  cases h1 : optMapM (SchemaMap.mapValuesM f) pr with
  | none => simp
  | some pr2 =>
    cases h2 : optMapM f it with
    | none => simp
    | some it2 => simp [Option.bind, eq_comm]

/- SchemaMap get/set lemmas. -/

theorem SchemaMap.get_set_self (m : SchemaMap) (n : String) (v w : Schema)
    (h : m.get n = some w) : (m.set n v).get n = some v := by
  induction m using schemaMapSpineInduction with
  | hnil => cases h
  | hcons k s rest ih =>
    rw [SchemaMap.get] at h
    by_cases hk : k = n
    · rw [SchemaMap.set, if_pos hk, SchemaMap.get, if_pos hk]
    · rw [if_neg hk] at h
      rw [SchemaMap.set, if_neg hk, SchemaMap.get, if_neg hk]
      exact ih h

theorem SchemaMap.get_set_ne (m : SchemaMap) (n : String) (v : Schema) (n2 : String)
    (h : n ≠ n2) : (m.set n v).get n2 = m.get n2 := by
  induction m using schemaMapSpineInduction with
  | hnil => rfl
  | hcons k s rest ih =>
    by_cases hk : k = n
    · subst hk
      rw [SchemaMap.set, if_pos rfl, SchemaMap.get, SchemaMap.get, if_neg h, if_neg h]
    · rw [SchemaMap.set, if_neg hk, SchemaMap.get, SchemaMap.get]
      by_cases hk2 : k = n2
      · rw [if_pos hk2, if_pos hk2]
      · rw [if_neg hk2, if_neg hk2]
        exact ih

theorem SchemaMap.set_keys (m : SchemaMap) (n : String) (v : Schema) :
    (m.set n v).keys = m.keys := by
  induction m using schemaMapSpineInduction with
  | hnil => rfl
  | hcons k s rest ih =>
    by_cases hk : k = n
    · rw [SchemaMap.set, if_pos hk, SchemaMap.keys, SchemaMap.keys]
    · rw [SchemaMap.set, if_neg hk, SchemaMap.keys, SchemaMap.keys, ih]

theorem SchemaMap.get_mem_keys (m : SchemaMap) (n : String) (s : Schema)
    (h : m.get n = some s) : n ∈ m.keys := by
  induction m using schemaMapSpineInduction with
  | hnil => cases h
  | hcons k s2 rest ih =>
    rw [SchemaMap.get] at h
    by_cases hk : k = n
    · rw [SchemaMap.keys]
      exact hk ▸ List.mem_cons_self _ _
    · rw [if_neg hk] at h
      exact List.mem_cons_of_mem _ (ih h)

theorem SchemaMap.get_mem_toList (m : SchemaMap) (n : String) (s : Schema)
    (h : m.get n = some s) : (n, s) ∈ m.toList := by
  induction m using schemaMapSpineInduction with
  | hnil => cases h
  | hcons k s2 rest ih =>
    rw [SchemaMap.get] at h
    by_cases hk : k = n
    · rw [if_pos hk] at h
      rw [SchemaMap.toList]
      cases h
      exact hk ▸ List.mem_cons_self _ _
    · rw [if_neg hk] at h
      exact List.mem_cons_of_mem _ (ih h)

/- Properties of the reference-graft step. -/

theorem resolve_node_reference_reference (s : Schema) (all : SchemaMap) :
    (resolve_node_reference s all).reference = none ∨ resolve_node_reference s all = s := by
  obtain ⟨ty, fm, ds, pr, it, rq, ao, oo, an, nt, ap, nu, ro, wo, ex, en, df, rf⟩ := s
  rw [resolve_node_reference.eq_def]
  dsimp only
  split
  · exact Or.inr rfl
  · split
    · exact Or.inl rfl
    · split
      · exact Or.inl rfl
      · exact Or.inl rfl

theorem resolve_node_reference_props_some (s : Schema) (all : SchemaMap) (l : SchemaMap)
    (h : s.properties = some l) : (resolve_node_reference s all).properties = some l := by
  obtain ⟨ty, fm, ds, pr, it, rq, ao, oo, an, nt, ap, nu, ro, wo, ex, en, df, rf⟩ := s
  rw [Schema.properties] at h
  subst h
  rw [resolve_node_reference.eq_def]
  dsimp only
  split
  · rfl
  · split
    · rfl
    · split
      · rfl
      · rfl

theorem extract_prefix_append (B : String) :
    extract_schema_name_from_ref ("#/components/schemas/" ++ B) = some B := by
  obtain ⟨bl⟩ := B
  unfold extract_schema_name_from_ref
  have hdata : (("#/components/schemas/" ++ String.mk bl).data)
      = "#/components/schemas/".data ++ bl := rfl
  rw [hdata]
  rw [if_pos (List.isPrefixOf_iff_prefix.mpr (List.prefix_append _ _))]
  have hlen : ("#/components/schemas/".data).length = 21 := rfl
  rw [← hlen, List.drop_left]

/-- Resolution preserves whether the property map is present and what
its keys are. -/
theorem resolveRec_props_keys (fuel : Nat) (s : Schema) (all : SchemaMap) (s' : Schema)
    (l : SchemaMap) (hres : resolve_schema_refs_recursive fuel s all = some s')
    (hpr : s.properties = some l) :
    ∃ l', s'.properties = some l' ∧ l'.keys = l.keys := by
  cases fuel with
  | zero => cases hres
  | succ fuel =>
    rw [resolve_schema_refs_recursive] at hres
    have hg := resolve_node_reference_props_some s all l hpr
    generalize hG : resolve_node_reference s all = g at hres hg
    obtain ⟨ty, fm, ds, pr, it, rq, ao, oo, an, nt, ap, nu, ro, wo, ex, en, df, rf⟩ := g
    rw [Schema.properties] at hg
    subst hg
    obtain ⟨pr2, it2, ao2, oo2, an2, h1, h2, h3, h4, h5, rfl⟩ :=
      (resolveStep_mk_eq_some _ _ _ _ _ _ _ _ _ _ _ _ _ _ _ _ _ _ _ _).mp hres
    obtain ⟨l2, hl2, rfl⟩ := (optMapM_some_eq_some _ _ _).mp h1
    exact ⟨l2, rfl, mapValuesM_keys _ _ _ hl2⟩

theorem schema_props_field_names (s : Schema) (l : SchemaMap) (h : s.properties = some l) :
    ∀ x ∈ l.keys, x ∈ s.get_field_names := by
  obtain ⟨ty, fm, ds, pr, it, rq, ao, oo, an, nt, ap, nu, ro, wo, ex, en, df, rf⟩ := s
  rw [Schema.properties] at h
  subst h
  intro x hx
  simp only [Schema.get_field_names, optKeys, List.mem_append]
  exact Or.inl (Or.inl (Or.inl (Or.inl hx)))

theorem go_untouched (fuel : Nat) (names : List String) :
    ∀ (m m' : SchemaMap) (n : String),
      resolve_schema_references_go fuel names m = some m' → n ∉ names →
      m'.get n = m.get n := by
  induction names with
  | nil =>
    intro m m' n h _
    cases h
    rfl
  | cons k rest ih =>
    intro m m' n h hn
    simp only [List.mem_cons, not_or] at hn
    rw [resolve_schema_references_go] at h
    cases hk : m.get k with
    | none =>
      rw [hk] at h
      exact ih _ _ _ h hn.2
    | some sk =>
      rw [hk] at h
      dsimp only at h
      cases hres : resolve_schema_refs_recursive fuel sk m with
      | none => rw [hres] at h; cases h
      | some sk2 =>
        rw [hres] at h
        rw [ih _ _ _ h hn.2]
        exact SchemaMap.get_set_ne _ _ _ _ (fun he => hn.1 he.symm)

theorem c5_go (fuel : Nat) (A B : String) (sA : Schema) (lB : SchemaMap)
    (hAprops : sA.properties = none)
    (hAref : sA.reference = some ("#/components/schemas/" ++ B)) :
    ∀ (names : List String) (m m' : SchemaMap),
      resolve_schema_references_go fuel names m = some m' →
      names.Nodup → A ∈ names →
      m.get A = some sA →
      (∃ sB2 lB2, m.get B = some sB2 ∧ sB2.properties = some lB2 ∧ lB2.keys = lB.keys) →
      ∃ sA2 l2, m'.get A = some sA2 ∧ sA2.properties = some l2 ∧ l2.keys = lB.keys := by
  intro names
  induction names with
  | nil => intro m m' _ _ hmem; cases hmem
  | cons k rest ih =>
    intro m m' hgo hnd hmem hgetA hB
    rw [List.nodup_cons] at hnd
    rw [resolve_schema_references_go] at hgo
    by_cases hkA : k = A
    · subst hkA
      rw [hgetA] at hgo
      dsimp only at hgo
      obtain ⟨sB2, lB2, hgB, hprB, hkeysB⟩ := hB
      have hAB : k ≠ B := by
        intro he
        rw [← he, hgetA] at hgB
        cases hgB
        rw [hAprops] at hprB
        cases hprB
      cases hres : resolve_schema_refs_recursive fuel sA m with
      | none => rw [hres] at hgo; cases hgo
      | some sA2 =>
        rw [hres] at hgo
        dsimp only at hgo
        cases fuel with
        | zero => cases hres
        | succ fu =>
          rw [resolve_schema_refs_recursive] at hres
          obtain ⟨ty, fm, ds, pr, it, rq, ao, oo, an, nt, ap, nu, ro, wo, ex, en, df, rf⟩ := sA
          rw [Schema.properties] at hAprops
          rw [Schema.reference] at hAref
          subst hAprops
          subst hAref
          rw [resolve_node_reference.eq_def] at hres
          dsimp only at hres
          rw [extract_prefix_append] at hres
          dsimp only at hres
          rw [hgB] at hres
          dsimp only at hres
          simp only [mergeAttr] at hres
          rw [hprB] at hres
          obtain ⟨pr2, it2, ao2, oo2, an2, h1, h2, h3, h4, h5, rfl⟩ :=
            (resolveStep_mk_eq_some _ _ _ _ _ _ _ _ _ _ _ _ _ _ _ _ _ _ _ _).mp hres
          obtain ⟨l2, hl2, rfl⟩ := (optMapM_some_eq_some _ _ _).mp h1
          have hget2 := (go_untouched _ rest _ _ _ hgo hnd.1).trans
            (SchemaMap.get_set_self _ _ _ _ hgetA)
          exact ⟨_, l2, hget2, rfl, (mapValuesM_keys _ _ _ hl2).trans hkeysB⟩
    · have hmem2 : A ∈ rest := by
        rcases List.mem_cons.mp hmem with h | h
        · exact absurd h.symm hkA
        · exact h
      cases hk : m.get k with
      | none =>
        rw [hk] at hgo
        exact ih _ _ hgo hnd.2 hmem2 hgetA hB
      | some sk =>
        rw [hk] at hgo
        dsimp only at hgo
        cases hres : resolve_schema_refs_recursive fuel sk m with
        | none => rw [hres] at hgo; cases hgo
        | some sk2 =>
          rw [hres] at hgo
          dsimp only at hgo
          have hgetA2 : (m.set k sk2).get A = some sA :=
            (SchemaMap.get_set_ne _ _ _ _ hkA).trans hgetA
          obtain ⟨sB2, lB2, hgB, hprB, hkeysB⟩ := hB
          by_cases hkB : k = B
          · subst hkB
            rw [hk] at hgB
            cases hgB
            obtain ⟨l2, hpr2, hkeys2⟩ := resolveRec_props_keys fuel sk m sk2 lB2 hres hprB
            exact ih _ _ hgo hnd.2 hmem2 hgetA2
              ⟨sk2, l2, SchemaMap.get_set_self _ _ _ _ hk, hpr2, hkeys2.trans hkeysB⟩
          · exact ih _ _ hgo hnd.2 hmem2 hgetA2
              ⟨sB2, lB2, (SchemaMap.get_set_ne _ _ _ _ hkB).trans hgB, hprB, hkeysB⟩

/-- C5 (amended): if `A` carries a reference to `B` and leaves its own
property map unset, and `B` defines properties x and y, then after
resolving the named-schema map the field names extracted from `A`
include x and y.  (The correction: when `A` carries its own property
map, the local override wins and `B`'s fields do not become
reachable — see the counterexample.) -/
theorem resolved_reference_fields_superset (fuel : Nat) (m : SchemaMap) (A B : String)
    (sA sB : Schema) (lB : SchemaMap) (m' : SchemaMap) (x y : String)
    (hnd : m.keys.Nodup)
    (hgetA : m.get A = some sA)
    (hAprops : sA.properties = none)
    (hAref : sA.reference = some ("#/components/schemas/" ++ B))
    (hgetB : m.get B = some sB)
    (hBprops : sB.properties = some lB)
    (hx : x ∈ lB.keys) (hy : y ∈ lB.keys)
    (hres : resolve_schema_references fuel m = some m') :
    ∃ sA2, m'.get A = some sA2 ∧ x ∈ sA2.get_field_names ∧ y ∈ sA2.get_field_names := by
  unfold resolve_schema_references at hres
  obtain ⟨sA2, l2, hget2, hpr2, hkeys⟩ :=
    c5_go fuel A B sA lB hAprops hAref m.keys m m' hres hnd
      (SchemaMap.get_mem_keys _ _ _ hgetA) hgetA ⟨sB, lB, hgetB, hBprops, rfl⟩
  exact ⟨sA2, hget2,
    schema_props_field_names sA2 l2 hpr2 x (hkeys ▸ hx),
    schema_props_field_names sA2 l2 hpr2 y (hkeys ▸ hy)⟩

/-- C5 witness: the amended theorem at the concrete two-schema map
where `A` is a bare reference to `B {x, y}`. -/
theorem resolved_reference_fields_superset_witness :
    ∃ sA2, ((resolve_schema_references 32 c5wMap).getD .nil).get "A" = some sA2 ∧
      "x" ∈ sA2.get_field_names ∧ "y" ∈ sA2.get_field_names :=
  resolved_reference_fields_superset 32 c5wMap "A" "B"
    (refOnlySchema "#/components/schemas/B")
    (propsSchema (.cons "x" emptySchema (.cons "y" emptySchema .nil)))
    (.cons "x" emptySchema (.cons "y" emptySchema .nil))
    ((resolve_schema_references 32 c5wMap).getD .nil)
    "x" "y" (by decide) rfl rfl rfl rfl rfl (by decide) (by decide) rfl

/-- C5 counterexample: `A` references `B {x, y}` but carries a local
property override `{z}`; after resolution the fields of `A` are
exactly `["z"]` — not a superset of `{x, y}`. -/
theorem resolved_reference_fields_not_superset :
    (c5Map.get "A").bind Schema.reference = some ("#/components/schemas/" ++ "B") ∧
    ((c5Map.get "B").bind Schema.properties).map SchemaMap.keys = some ["x", "y"] ∧
    ((resolve_schema_references 32 c5Map).bind (fun m2 => m2.get "A")).map
        Schema.get_field_names = some ["z"] ∧
    ¬ ("x" ∈ ["z"] ∧ "y" ∈ ["z"]) := by
  refine ⟨by decide, by decide, by decide, by decide⟩

/- Reference clearing along the traversed positions. -/

theorem resolve_node_reference_ref_none (s : Schema) (all : SchemaMap) :
    (resolve_node_reference s all).reference = none := by
  obtain ⟨ty, fm, ds, pr, it, rq, ao, oo, an, nt, ap, nu, ro, wo, ex, en, df, rf⟩ := s
  rw [resolve_node_reference.eq_def]
  dsimp only
  split
  · rfl
  · split
    · rfl
    · split
      · rfl
      · rfl

theorem mapValuesM_refsCleared (f : Schema → Option Schema)
    (hf : ∀ a b, f a = some b → b.refsCleared = true) (m : SchemaMap) :
    ∀ m', SchemaMap.mapValuesM f m = some m' → m'.refsClearedMap = true := by
  induction m using schemaMapSpineInduction with
  | hnil => intro m' h; cases h; rfl
  | hcons n s rest ih =>
    intro m' h
    obtain ⟨s2, rest2, hs2, hrest, rfl⟩ := (mapValuesM_cons_eq_some f n s rest m').mp h
    rw [SchemaMap.refsClearedMap, Bool.and_eq_true]
    exact ⟨hf _ _ hs2, ih rest2 hrest⟩

theorem listMapM_refsCleared (f : Schema → Option Schema)
    (hf : ∀ a b, f a = some b → b.refsCleared = true) (l : SchemaList) :
    ∀ l', SchemaList.mapM f l = some l' → l'.refsClearedList = true := by
  induction l using schemaListSpineInduction with
  | hnil => intro l' h; cases h; rfl
  | hcons s rest ih =>
    intro l' h
    obtain ⟨s2, rest2, hs2, hrest, rfl⟩ := (schemaListMapM_cons_eq_some f s rest l').mp h
    rw [SchemaList.refsClearedList, Bool.and_eq_true]
    exact ⟨hf _ _ hs2, ih rest2 hrest⟩

theorem optMapM_map_refsCleared (f : Schema → Option Schema)
    (hf : ∀ a b, f a = some b → b.refsCleared = true) (o : Option SchemaMap)
    (o' : Option SchemaMap) (h : optMapM (SchemaMap.mapValuesM f) o = some o') :
    optRefsClearedMap o' = true := by
  cases o with
  | none => cases h; rfl
  | some m =>
    obtain ⟨m2, hm2, rfl⟩ := (optMapM_some_eq_some _ _ _).mp h
    exact mapValuesM_refsCleared f hf m m2 hm2

theorem optMapM_schema_refsCleared (f : Schema → Option Schema)
    (hf : ∀ a b, f a = some b → b.refsCleared = true) (o : Option Schema)
    (o' : Option Schema) (h : optMapM f o = some o') : optRefsCleared o' = true := by
  cases o with
  | none => cases h; rfl
  | some s =>
    obtain ⟨s2, hs2, rfl⟩ := (optMapM_some_eq_some _ _ _).mp h
    exact hf _ _ hs2

theorem optMapM_list_refsCleared (f : Schema → Option Schema)
    (hf : ∀ a b, f a = some b → b.refsCleared = true) (o : Option SchemaList)
    (o' : Option SchemaList) (h : optMapM (SchemaList.mapM f) o = some o') :
    optRefsClearedList o' = true := by
  cases o with
  | none => cases h; rfl
  | some l =>
    obtain ⟨l2, hl2, rfl⟩ := (optMapM_some_eq_some _ _ _).mp h
    exact listMapM_refsCleared f hf l l2 hl2

theorem resolveRec_refsCleared (fuel : Nat) :
    ∀ (s : Schema) (all : SchemaMap) (s' : Schema),
      resolve_schema_refs_recursive fuel s all = some s' → s'.refsCleared = true := by
  induction fuel with
  | zero => intro s all s' h; cases h
  | succ fuel ih =>
    intro s all s' h
    rw [resolve_schema_refs_recursive] at h
    have hrf := resolve_node_reference_ref_none s all
    generalize hG : resolve_node_reference s all = g at h hrf
    obtain ⟨ty, fm, ds, pr, it, rq, ao, oo, an, nt, ap, nu, ro, wo, ex, en, df, rf⟩ := g
    rw [Schema.reference] at hrf
    subst hrf
    obtain ⟨pr2, it2, ao2, oo2, an2, h1, h2, h3, h4, h5, rfl⟩ :=
      (resolveStep_mk_eq_some _ _ _ _ _ _ _ _ _ _ _ _ _ _ _ _ _ _ _ _).mp h
    have hfrec : ∀ a b, resolve_schema_refs_recursive fuel a all = some b →
        b.refsCleared = true := fun a b hb => ih a all b hb
    rw [Schema.refsCleared]
    simp only [Bool.and_eq_true]
    exact ⟨⟨⟨⟨⟨rfl, optMapM_map_refsCleared _ hfrec _ _ h1⟩,
      optMapM_schema_refsCleared _ hfrec _ _ h2⟩,
      optMapM_list_refsCleared _ hfrec _ _ h3⟩,
      optMapM_list_refsCleared _ hfrec _ _ h4⟩,
      optMapM_list_refsCleared _ hfrec _ _ h5⟩

theorem go_refsCleared (fuel : Nat) :
    ∀ (names : List String) (m m' : SchemaMap),
      resolve_schema_references_go fuel names m = some m' →
      ∀ (n : String) (s' : Schema), m'.get n = some s' →
        s'.refsCleared = true ∨ (m.get n = some s' ∧ n ∉ names) := by
  intro names
  induction names with
  | nil =>
    intro m m' h n s' hget
    cases h
    exact Or.inr ⟨hget, List.not_mem_nil n⟩
  | cons k rest ih =>
    intro m m' h n s' hget
    rw [resolve_schema_references_go] at h
    cases hk : m.get k with
    | none =>
      rw [hk] at h
      rcases ih m m' h n s' hget with hc | ⟨hsame, hnin⟩
      · exact Or.inl hc
      · refine Or.inr ⟨hsame, ?_⟩
        intro hmem
        rcases List.mem_cons.mp hmem with rfl | hmem2
        · rw [hk] at hsame; cases hsame
        · exact hnin hmem2
    | some sk =>
      rw [hk] at h
      dsimp only at h
      cases hres : resolve_schema_refs_recursive fuel sk m with
      | none => rw [hres] at h; cases h
      | some sk2 =>
        rw [hres] at h
        dsimp only at h
        rcases ih _ m' h n s' hget with hc | ⟨hsame, hnin⟩
        · exact Or.inl hc
        · by_cases hnk : n = k
          · subst hnk
            rw [SchemaMap.get_set_self _ _ _ _ hk] at hsame
            cases hsame
            exact Or.inl (resolveRec_refsCleared fuel sk m _ hres)
          · rw [SchemaMap.get_set_ne _ _ _ _ (fun he => hnk he.symm)] at hsame
            refine Or.inr ⟨hsame, ?_⟩
            intro hmem
            rcases List.mem_cons.mp hmem with rfl | hmem2
            · exact hnk rfl
            · exact hnin hmem2

theorem go_keys (fuel : Nat) :
    ∀ (names : List String) (m m' : SchemaMap),
      resolve_schema_references_go fuel names m = some m' → m'.keys = m.keys := by
  intro names
  induction names with
  | nil => intro m m' h; cases h; rfl
  | cons k rest ih =>
    intro m m' h
    rw [resolve_schema_references_go] at h
    cases hk : m.get k with
    | none =>
      rw [hk] at h
      exact ih m m' h
    | some sk =>
      rw [hk] at h
      dsimp only at h
      cases hres : resolve_schema_refs_recursive fuel sk m with
      | none => rw [hres] at h; cases h
      | some sk2 =>
        rw [hres] at h
        dsimp only at h
        rw [ih _ m' h]
        exact SchemaMap.set_keys _ _ _

theorem resolve_schema_references_refsCleared (fuel : Nat) (m m' : SchemaMap)
    (h : resolve_schema_references fuel m = some m') :
    ∀ (n : String) (s' : Schema), m'.get n = some s' → s'.refsCleared = true := by
  intro n s' hget
  unfold resolve_schema_references at h
  rcases go_refsCleared fuel m.keys m m' h n s' hget with hc | ⟨hsame, hnin⟩
  · exact hc
  · exact absurd (SchemaMap.get_mem_keys _ _ _ hsame) hnin

/-- C1 (amended): after a successful run of `resolve_references`,
every named component schema of the result satisfies the cleared
predicate on the traversed positions — no reference string at any node
reachable through properties, items, or the allOf / oneOf / anyOf
lists, dangling references included.  (The correction: in operation
schemas a reference is replaced only when its target exists, so a
dangling reference inside a parameter, request-body or response schema
is left in place — see the counterexample — and nodes under `not` or
`additionalProperties` are never visited.) -/
theorem resolved_components_refs_cleared (fuel : Nat) (spec spec' : OpenApiSpec) (n : String)
    (s : Schema) (hres : resolve_references fuel spec = some spec')
    (hget : (specSchemas spec').get n = some s) : s.refsCleared = true := by
  unfold resolve_references at hres
  cases hc : resolve_components fuel spec with
  | none => rw [hc] at hres; cases hres
  | some spec1 =>
    rw [hc] at hres
    rw [Option.some_bind] at hres
    cases hp : resolve_paths fuel spec1.paths spec1 with
    | none => rw [hp] at hres; cases hres
    | some paths2 =>
      rw [hp] at hres
      rw [Option.map_some'] at hres
      cases hres
      have hcomp : specSchemas { spec1 with paths := paths2 } = specSchemas spec1 := rfl
      rw [hcomp] at hget
      unfold resolve_components at hc
      cases hsc : spec.components with
      | none =>
        rw [hsc] at hc
        injection hc with hc1
        subst hc1
        rw [show specSchemas spec = .nil from by
          unfold specSchemas
          rw [hsc]] at hget
        cases hget
      | some components =>
        rw [hsc] at hc
        dsimp only at hc
        cases hss : components.schemas with
        | none =>
          rw [hss] at hc
          injection hc with hc1
          subst hc1
          rw [show specSchemas spec = .nil from by
            unfold specSchemas
            rw [hsc]
            dsimp only
            rw [hss]] at hget
          cases hget
        | some schemas =>
          rw [hss] at hc
          dsimp only at hc
          cases hrs : resolve_schema_references fuel schemas with
          | none => rw [hrs] at hc; cases hc
          | some schemas2 =>
            rw [hrs] at hc
            rw [Option.map_some'] at hc
            injection hc with hc1
            subst hc1
            exact resolve_schema_references_refsCleared fuel schemas schemas2 hrs n s hget

/-- C1 amended-theorem witness at a concrete document whose schema map
contains a resolvable property reference and a dangling item
reference. -/
theorem resolved_components_refs_cleared_witness :
    Schema.refsCleared c1wEntry = true :=
  resolved_components_refs_cleared 32 c1wSpec c1wResolved "A" c1wEntry rfl rfl

/-- C1 counterexample: a dangling reference inside a parameter schema
survives `resolve_references` as a non-empty reference string. -/
theorem unresolved_param_reference_retained :
    (resolve_references 32 c1Spec).map firstParamRef
        = some (some "#/components/schemas/Missing") ∧
      "#/components/schemas/Missing" ≠ "" := ⟨by decide, by decide⟩

/- Size and reference-set decomposition lemmas for the termination
argument. -/

theorem sizeM_pos (s : Schema) : 1 ≤ s.sizeM := by
  obtain ⟨ty, fm, ds, pr, it, rq, ao, oo, an, nt, ap, nu, ro, wo, ex, en, df, rf⟩ := s
  rw [Schema.sizeM]
  omega

theorem sizeMap_value_le (l : SchemaMap) :
    ∀ (n : String) (v : Schema), (n, v) ∈ l.toList → v.sizeM ≤ l.sizeMap := by
  induction l using schemaMapSpineInduction with
  | hnil => intro n v h; cases h
  | hcons k s rest ih =>
    intro n v h
    rw [SchemaMap.toList] at h
    rw [SchemaMap.sizeMap]
    rcases List.mem_cons.mp h with heq | hmem
    · cases heq
      omega
    · have := ih n v hmem
      omega

theorem sizeList_value_le (l : SchemaList) :
    ∀ v : Schema, v ∈ l.toListS → v.sizeM ≤ l.sizeList := by
  induction l using schemaListSpineInduction with
  | hnil => intro v h; cases h
  | hcons s rest ih =>
    intro v h
    rw [SchemaList.toListS] at h
    rw [SchemaList.sizeList]
    rcases List.mem_cons.mp h with heq | hmem
    · subst heq; omega
    · have := ih v hmem
      omega

theorem sizeMap_get_le (m : SchemaMap) (n : String) (t : Schema) (h : m.get n = some t) :
    t.sizeM ≤ m.sizeMap :=
  sizeMap_value_le m n t (SchemaMap.get_mem_toList m n t h)

theorem listSizeM_mem_le (l : List Schema) (s : Schema) (h : s ∈ l) : s.sizeM ≤ listSizeM l := by
  induction l with
  | nil => cases h
  | cons x rest ih =>
    rw [listSizeM, List.foldr_cons]
    rcases List.mem_cons.mp h with rfl | hmem
    · omega
    · have := ih hmem
      rw [listSizeM] at this
      omega

theorem maxRank_mem_le (r : String → Nat) (l : List String) (b : String) (h : b ∈ l) :
    r b ≤ maxRank r l := by
  induction l with
  | nil => cases h
  | cons x rest ih =>
    rw [maxRank, List.foldr_cons]
    rcases List.mem_cons.mp h with rfl | hmem
    · omega
    · have := ih hmem
      rw [maxRank] at this
      omega

theorem allRefsMap_value_sub (l : SchemaMap) :
    ∀ (n : String) (v : Schema), (n, v) ∈ l.toList → ∀ b ∈ v.allRefs, b ∈ l.allRefsMap := by
  induction l using schemaMapSpineInduction with
  | hnil => intro n v h; cases h
  | hcons k s rest ih =>
    intro n v h b hb
    rw [SchemaMap.toList] at h
    rw [SchemaMap.allRefsMap, List.mem_append]
    rcases List.mem_cons.mp h with heq | hmem
    · cases heq
      exact Or.inl hb
    · exact Or.inr (ih n v hmem b hb)

theorem allRefsList_value_sub (l : SchemaList) :
    ∀ v : Schema, v ∈ l.toListS → ∀ b ∈ v.allRefs, b ∈ l.allRefsList := by
  induction l using schemaListSpineInduction with
  | hnil => intro v h; cases h
  | hcons s rest ih =>
    intro v h b hb
    rw [SchemaList.toListS] at h
    rw [SchemaList.allRefsList, List.mem_append]
    rcases List.mem_cons.mp h with heq | hmem
    · subst heq
      exact Or.inl hb
    · exact Or.inr (ih v hmem b hb)

/- Per-position child bounds: a child reachable in one traversal step
is strictly smaller, and its reference set is contained in the
parent's. -/

theorem props_child_size (s : Schema) (l : SchemaMap) (h : s.properties = some l)
    (n : String) (v : Schema) (hm : (n, v) ∈ l.toList) : v.sizeM < s.sizeM := by
  obtain ⟨ty, fm, ds, pr, it, rq, ao, oo, an, nt, ap, nu, ro, wo, ex, en, df, rf⟩ := s
  rw [Schema.properties] at h
  subst h
  rw [Schema.sizeM, optSizeMap]
  have := sizeMap_value_le l n v hm
  omega

theorem items_child_size (s : Schema) (v : Schema) (h : s.items = some v) :
    v.sizeM < s.sizeM := by
  obtain ⟨ty, fm, ds, pr, it, rq, ao, oo, an, nt, ap, nu, ro, wo, ex, en, df, rf⟩ := s
  rw [Schema.items] at h
  subst h
  rw [Schema.sizeM, optSize]
  omega

theorem allOf_child_size (s : Schema) (l : SchemaList) (h : s.all_of = some l)
    (v : Schema) (hm : v ∈ l.toListS) : v.sizeM < s.sizeM := by
  obtain ⟨ty, fm, ds, pr, it, rq, ao, oo, an, nt, ap, nu, ro, wo, ex, en, df, rf⟩ := s
  rw [Schema.all_of] at h
  subst h
  rw [Schema.sizeM, optSizeList]
  have := sizeList_value_le l v hm
  omega

theorem oneOf_child_size (s : Schema) (l : SchemaList) (h : s.one_of = some l)
    (v : Schema) (hm : v ∈ l.toListS) : v.sizeM < s.sizeM := by
  obtain ⟨ty, fm, ds, pr, it, rq, ao, oo, an, nt, ap, nu, ro, wo, ex, en, df, rf⟩ := s
  rw [Schema.one_of] at h
  subst h
  rw [Schema.sizeM, optSizeList]
  have := sizeList_value_le l v hm
  omega

theorem anyOf_child_size (s : Schema) (l : SchemaList) (h : s.any_of = some l)
    (v : Schema) (hm : v ∈ l.toListS) : v.sizeM < s.sizeM := by
  obtain ⟨ty, fm, ds, pr, it, rq, ao, oo, an, nt, ap, nu, ro, wo, ex, en, df, rf⟩ := s
  rw [Schema.any_of] at h
  subst h
  rw [Schema.sizeM, optSizeList]
  have := sizeList_value_le l v hm
  omega

theorem props_child_refs (s : Schema) (l : SchemaMap) (h : s.properties = some l)
    (n : String) (v : Schema) (hm : (n, v) ∈ l.toList) :
    ∀ b ∈ v.allRefs, b ∈ s.allRefs := by
  obtain ⟨ty, fm, ds, pr, it, rq, ao, oo, an, nt, ap, nu, ro, wo, ex, en, df, rf⟩ := s
  rw [Schema.properties] at h
  subst h
  intro b hb
  rw [Schema.allRefs, optAllRefsMap]
  have := allRefsMap_value_sub l n v hm b hb
  simp only [List.mem_append]
  tauto

theorem items_child_refs (s : Schema) (v : Schema) (h : s.items = some v) :
    ∀ b ∈ v.allRefs, b ∈ s.allRefs := by
  obtain ⟨ty, fm, ds, pr, it, rq, ao, oo, an, nt, ap, nu, ro, wo, ex, en, df, rf⟩ := s
  rw [Schema.items] at h
  subst h
  intro b hb
  rw [Schema.allRefs, optAllRefs]
  simp only [List.mem_append]
  tauto

theorem allOf_child_refs (s : Schema) (l : SchemaList) (h : s.all_of = some l)
    (v : Schema) (hm : v ∈ l.toListS) : ∀ b ∈ v.allRefs, b ∈ s.allRefs := by
  obtain ⟨ty, fm, ds, pr, it, rq, ao, oo, an, nt, ap, nu, ro, wo, ex, en, df, rf⟩ := s
  rw [Schema.all_of] at h
  subst h
  intro b hb
  rw [Schema.allRefs, optAllRefsList]
  have := allRefsList_value_sub l v hm b hb
  simp only [List.mem_append]
  tauto

theorem oneOf_child_refs (s : Schema) (l : SchemaList) (h : s.one_of = some l)
    (v : Schema) (hm : v ∈ l.toListS) : ∀ b ∈ v.allRefs, b ∈ s.allRefs := by
  obtain ⟨ty, fm, ds, pr, it, rq, ao, oo, an, nt, ap, nu, ro, wo, ex, en, df, rf⟩ := s
  rw [Schema.one_of] at h
  subst h
  intro b hb
  rw [Schema.allRefs, optAllRefsList]
  have := allRefsList_value_sub l v hm b hb
  simp only [List.mem_append]
  tauto

theorem anyOf_child_refs (s : Schema) (l : SchemaList) (h : s.any_of = some l)
    (v : Schema) (hm : v ∈ l.toListS) : ∀ b ∈ v.allRefs, b ∈ s.allRefs := by
  obtain ⟨ty, fm, ds, pr, it, rq, ao, oo, an, nt, ap, nu, ro, wo, ex, en, df, rf⟩ := s
  rw [Schema.any_of] at h
  subst h
  intro b hb
  rw [Schema.allRefs, optAllRefsList]
  have := allRefsList_value_sub l v hm b hb
  simp only [List.mem_append]
  tauto

theorem ref_target_mem (s : Schema) (rp : String) (tname : String)
    (h : s.reference = some rp) (hex : extract_schema_name_from_ref rp = some tname) :
    tname ∈ s.allRefs := by
  obtain ⟨ty, fm, ds, pr, it, rq, ao, oo, an, nt, ap, nu, ro, wo, ex, en, df, rf⟩ := s
  rw [Schema.reference] at h
  subst h
  rw [Schema.allRefs, refTarget, hex]
  simp

/- The head step of the recursive resolver never touches the items
field or the composition lists, and changes the property map only by
inheriting the target's map when the node left its own unset. -/

theorem resolve_node_reference_items (s : Schema) (all : SchemaMap) :
    (resolve_node_reference s all).items = s.items := by
  obtain ⟨ty, fm, ds, pr, it, rq, ao, oo, an, nt, ap, nu, ro, wo, ex, en, df, rf⟩ := s
  rw [resolve_node_reference.eq_def]
  dsimp only
  cases rf with
  | none => rfl
  | some rp =>
    dsimp only
    cases extract_schema_name_from_ref rp with
    | none => rfl
    | some tname =>
      dsimp only
      cases all.get tname with
      | none => rfl
      | some t => rfl

theorem resolve_node_reference_all_of (s : Schema) (all : SchemaMap) :
    (resolve_node_reference s all).all_of = s.all_of := by
  obtain ⟨ty, fm, ds, pr, it, rq, ao, oo, an, nt, ap, nu, ro, wo, ex, en, df, rf⟩ := s
  rw [resolve_node_reference.eq_def]
  dsimp only
  cases rf with
  | none => rfl
  | some rp =>
    dsimp only
    cases extract_schema_name_from_ref rp with
    | none => rfl
    | some tname =>
      dsimp only
      cases all.get tname with
      | none => rfl
      | some t => rfl

theorem resolve_node_reference_one_of (s : Schema) (all : SchemaMap) :
    (resolve_node_reference s all).one_of = s.one_of := by
  obtain ⟨ty, fm, ds, pr, it, rq, ao, oo, an, nt, ap, nu, ro, wo, ex, en, df, rf⟩ := s
  rw [resolve_node_reference.eq_def]
  dsimp only
  cases rf with
  | none => rfl
  | some rp =>
    dsimp only
    cases extract_schema_name_from_ref rp with
    | none => rfl
    | some tname =>
      dsimp only
      cases all.get tname with
      | none => rfl
      | some t => rfl

theorem resolve_node_reference_any_of (s : Schema) (all : SchemaMap) :
    (resolve_node_reference s all).any_of = s.any_of := by
  obtain ⟨ty, fm, ds, pr, it, rq, ao, oo, an, nt, ap, nu, ro, wo, ex, en, df, rf⟩ := s
  rw [resolve_node_reference.eq_def]
  dsimp only
  cases rf with
  | none => rfl
  | some rp =>
    dsimp only
    cases extract_schema_name_from_ref rp with
    | none => rfl
    | some tname =>
      dsimp only
      cases all.get tname with
      | none => rfl
      | some t => rfl

theorem resolve_node_reference_props_cases (s : Schema) (all : SchemaMap) :
    (resolve_node_reference s all).properties = s.properties ∨
    (s.properties = none ∧ ∃ rp tname t, s.reference = some rp ∧
      extract_schema_name_from_ref rp = some tname ∧ all.get tname = some t ∧
      (resolve_node_reference s all).properties = t.properties) := by
  obtain ⟨ty, fm, ds, pr, it, rq, ao, oo, an, nt, ap, nu, ro, wo, ex, en, df, rf⟩ := s
  rw [resolve_node_reference.eq_def]
  dsimp only
  cases rf with
  | none => exact Or.inl rfl
  | some rp =>
    dsimp only
    cases hex : extract_schema_name_from_ref rp with
    | none => exact Or.inl rfl
    | some tname =>
      dsimp only [hex]
      cases hgt : all.get tname with
      | none => exact Or.inl rfl
      | some t =>
        cases pr with
        | some l => exact Or.inl rfl
        | none =>
          right
          refine ⟨rfl, rp, tname, t, rfl, hex, hgt, ?_⟩
          rw [Schema.properties, mergeAttr]

/- Success of the traversal combinators from pointwise success on the
contained schemas. -/

theorem mapValuesM_isSome (f : Schema → Option Schema) (m : SchemaMap)
    (h : ∀ (n : String) (v : Schema), (n, v) ∈ m.toList → (f v).isSome) :
    (m.mapValuesM f).isSome := by
  induction m using schemaMapSpineInduction with
  | hnil => rfl
  | hcons k s rest ih =>
    rw [SchemaMap.mapValuesM]
    have h1 : (f s).isSome := h k s (by rw [SchemaMap.toList]; exact List.mem_cons_self ..)
    obtain ⟨s2, hs2⟩ := Option.isSome_iff_exists.mp h1
    have h2 : (rest.mapValuesM f).isSome := by
      apply ih
      intro n v hm
      exact h n v (by rw [SchemaMap.toList]; exact List.mem_cons_of_mem _ hm)
    obtain ⟨r2, hr2⟩ := Option.isSome_iff_exists.mp h2
    rw [hs2, Option.some_bind, hr2, Option.map_some']
    rfl

theorem schemaListMapM_isSome (f : Schema → Option Schema) (l : SchemaList)
    (h : ∀ v ∈ l.toListS, (f v).isSome) : (l.mapM f).isSome := by
  induction l using schemaListSpineInduction with
  | hnil => rfl
  | hcons s rest ih =>
    rw [SchemaList.mapM]
    have h1 : (f s).isSome := h s (by rw [SchemaList.toListS]; exact List.mem_cons_self ..)
    obtain ⟨s2, hs2⟩ := Option.isSome_iff_exists.mp h1
    have h2 : (rest.mapM f).isSome := by
      apply ih
      intro v hm
      exact h v (by rw [SchemaList.toListS]; exact List.mem_cons_of_mem _ hm)
    obtain ⟨r2, hr2⟩ := Option.isSome_iff_exists.mp h2
    rw [hs2, Option.some_bind, hr2, Option.map_some']
    rfl

theorem optMapM_isSome {α β : Type} (f : α → Option β) (o : Option α)
    (h : ∀ x, o = some x → (f x).isSome) : (optMapM f o).isSome := by
  cases o with
  | none => rfl
  | some x =>
    rw [optMapM]
    obtain ⟨y, hy⟩ := Option.isSome_iff_exists.mp (h x rfl)
    rw [hy, Option.map_some']
    rfl

theorem mapOptionList_isSome {α β : Type} (f : α → Option β) (l : List α)
    (h : ∀ x ∈ l, (f x).isSome) : (mapOptionList f l).isSome := by
  induction l with
  | nil => rfl
  | cons x rest ih =>
    rw [mapOptionList]
    obtain ⟨y, hy⟩ := Option.isSome_iff_exists.mp (h x (List.mem_cons_self ..))
    have h2 : (mapOptionList f rest).isSome := ih (fun z hz => h z (List.mem_cons_of_mem _ hz))
    obtain ⟨r2, hr2⟩ := Option.isSome_iff_exists.mp h2
    rw [hy, Option.some_bind, hr2, Option.map_some']
    rfl

theorem resolveStep_isSome (g : Schema) (f : Schema → Option Schema)
    (hpr : ∀ l, g.properties = some l →
      ∀ (n : String) (v : Schema), (n, v) ∈ l.toList → (f v).isSome)
    (hit : ∀ v, g.items = some v → (f v).isSome)
    (hao : ∀ l, g.all_of = some l → ∀ v ∈ l.toListS, (f v).isSome)
    (hoo : ∀ l, g.one_of = some l → ∀ v ∈ l.toListS, (f v).isSome)
    (han : ∀ l, g.any_of = some l → ∀ v ∈ l.toListS, (f v).isSome) :
    (resolveStep g f).isSome := by
  obtain ⟨ty, fm, ds, pr, it, rq, ao, oo, an, nt, ap, nu, ro, wo, ex, en, df, rf⟩ := g
  rw [Schema.properties] at hpr
  rw [Schema.items] at hit
  rw [Schema.all_of] at hao
  rw [Schema.one_of] at hoo
  rw [Schema.any_of] at han
  rw [resolveStep]
  have h1 : (optMapM (SchemaMap.mapValuesM f) pr).isSome := by
    apply optMapM_isSome
    intro l hl
    exact mapValuesM_isSome f l (hpr l hl)
  have h2 : (optMapM f it).isSome := optMapM_isSome f it hit
  have h3 : (optMapM (SchemaList.mapM f) ao).isSome := by
    apply optMapM_isSome
    intro l hl
    exact schemaListMapM_isSome f l (hao l hl)
  have h4 : (optMapM (SchemaList.mapM f) oo).isSome := by
    apply optMapM_isSome
    intro l hl
    exact schemaListMapM_isSome f l (hoo l hl)
  have h5 : (optMapM (SchemaList.mapM f) an).isSome := by
    apply optMapM_isSome
    intro l hl
    exact schemaListMapM_isSome f l (han l hl)
  obtain ⟨pr2, hpr2⟩ := Option.isSome_iff_exists.mp h1
  obtain ⟨it2, hit2⟩ := Option.isSome_iff_exists.mp h2
  obtain ⟨ao2, hao2⟩ := Option.isSome_iff_exists.mp h3
  obtain ⟨oo2, hoo2⟩ := Option.isSome_iff_exists.mp h4
  obtain ⟨an2, han2⟩ := Option.isSome_iff_exists.mp h5
  rw [hpr2, Option.some_bind, hit2, Option.some_bind, hao2, Option.some_bind,
    hoo2, Option.some_bind, han2, Option.map_some']
  rfl

/-- Core termination argument: when the reference graph of `all`
admits a rank function `r`, the recursive resolver succeeds on any
schema whose references all have rank below `R`, given fuel beyond
`sizeM + R * (sizeMap + 1)`.  Structural children shrink `sizeM`;
grafted children live under a target of strictly smaller rank. -/
theorem resolveRec_succeeds (all : SchemaMap) (r : String → Nat) (hcompat : RankCompat all r) :
    ∀ (fuel R : Nat) (s : Schema), (∀ b ∈ s.allRefs, r b < R) →
      s.sizeM + R * (all.sizeMap + 1) < fuel →
      (resolve_schema_refs_recursive fuel s all).isSome := by
  intro fuel
  induction fuel with
  | zero => intro R s _ hfuel; omega
  | succ fuel ih =>
    intro R s hrank hfuel
    rw [resolve_schema_refs_recursive]
    apply resolveStep_isSome
    · -- property values
      intro l hl n v hm
      rcases resolve_node_reference_props_cases s all with hsame | ⟨_, rp, tname, t, hrp, hex, hgt, hprops⟩
      · -- own property map: structural shrinking child
        rw [hsame] at hl
        apply ih R v (fun b hb => hrank b (props_child_refs s l hl n v hm b hb))
        have := props_child_size s l hl n v hm
        omega
      · -- grafted from the target: rank strictly drops
        rw [hprops] at hl
        have htmem : (tname, t) ∈ all.toList := SchemaMap.get_mem_toList all tname t hgt
        have htrank : ∀ b ∈ t.allRefs, r b < r tname := hcompat (tname, t) htmem
        have hRpos : r tname < R := hrank tname (ref_target_mem s rp tname hrp hex)
        apply ih (r tname) v
          (fun b hb => htrank b (props_child_refs t l hl n v hm b hb))
        have hvsize : v.sizeM < t.sizeM := props_child_size t l hl n v hm
        have htsize : t.sizeM ≤ all.sizeMap := sizeMap_get_le all tname t hgt
        have hspos : 1 ≤ s.sizeM := sizeM_pos s
        have hmul : (R - 1) * (all.sizeMap + 1) + (all.sizeMap + 1) = R * (all.sizeMap + 1) := by
          cases R with
          | zero => omega
          | succ R0 => simp [Nat.succ_mul]
        have hmul2 : r tname * (all.sizeMap + 1) ≤ (R - 1) * (all.sizeMap + 1) :=
          Nat.mul_le_mul_right _ (by omega)
        omega
    · -- item sub-schema
      intro v hv
      rw [resolve_node_reference_items] at hv
      apply ih R v (fun b hb => hrank b (items_child_refs s v hv b hb))
      have := items_child_size s v hv
      omega
    · -- allOf list
      intro l hl v hm
      rw [resolve_node_reference_all_of] at hl
      apply ih R v (fun b hb => hrank b (allOf_child_refs s l hl v hm b hb))
      have := allOf_child_size s l hl v hm
      omega
    · -- oneOf list
      intro l hl v hm
      rw [resolve_node_reference_one_of] at hl
      apply ih R v (fun b hb => hrank b (oneOf_child_refs s l hl v hm b hb))
      have := oneOf_child_size s l hl v hm
      omega
    · -- anyOf list
      intro l hl v hm
      rw [resolve_node_reference_any_of] at hl
      apply ih R v (fun b hb => hrank b (anyOf_child_refs s l hl v hm b hb))
      have := anyOf_child_size s l hl v hm
      omega

/- A schema tree whose traversed references are all cleared
contributes no edges to the reference graph. -/

mutual

theorem refsCleared_allRefs_nil :
    ∀ s : Schema, s.refsCleared = true → s.allRefs = []
  | .mk ty fm ds pr it rq ao oo an nt ap nu ro wo ex en df rf => by
    intro h
    rw [Schema.refsCleared] at h
    simp only [Bool.and_eq_true] at h
    obtain ⟨⟨⟨⟨⟨hrf, hpr⟩, hit⟩, hao⟩, hoo⟩, han⟩ := h
    rw [Schema.allRefs]
    rw [Option.isNone_iff_eq_none] at hrf
    subst hrf
    rw [refsClearedMap_opt_nil pr hpr, refsCleared_opt_nil it hit,
      refsClearedList_opt_nil ao hao, refsClearedList_opt_nil oo hoo,
      refsClearedList_opt_nil an han]
    rfl

theorem refsClearedMap_opt_nil :
    ∀ o : Option SchemaMap, optRefsClearedMap o = true → optAllRefsMap o = []
  | none, _ => rfl
  | some l, h => by
    rw [optRefsClearedMap] at h
    rw [optAllRefsMap]
    exact refsClearedMap_allRefs_nil l h

theorem refsCleared_opt_nil :
    ∀ o : Option Schema, optRefsCleared o = true → optAllRefs o = []
  | none, _ => rfl
  | some s, h => by
    rw [optRefsCleared] at h
    rw [optAllRefs]
    exact refsCleared_allRefs_nil s h

theorem refsClearedList_opt_nil :
    ∀ o : Option SchemaList, optRefsClearedList o = true → optAllRefsList o = []
  | none, _ => rfl
  | some l, h => by
    rw [optRefsClearedList] at h
    rw [optAllRefsList]
    exact refsClearedList_allRefs_nil l h

theorem refsClearedMap_allRefs_nil :
    ∀ m : SchemaMap, m.refsClearedMap = true → m.allRefsMap = []
  | .nil, _ => rfl
  | .cons n s rest, h => by
    rw [SchemaMap.refsClearedMap, Bool.and_eq_true] at h
    rw [SchemaMap.allRefsMap, refsCleared_allRefs_nil s h.1, refsClearedMap_allRefs_nil rest h.2]
    rfl

theorem refsClearedList_allRefs_nil :
    ∀ l : SchemaList, l.refsClearedList = true → l.allRefsList = []
  | .nil, _ => rfl
  | .cons s rest, h => by
    rw [SchemaList.refsClearedList, Bool.and_eq_true] at h
    rw [SchemaList.allRefsList, refsCleared_allRefs_nil s h.1, refsClearedList_allRefs_nil rest h.2]
    rfl

end

theorem resolveRec_allRefs_nil (fuel : Nat) (s : Schema) (all : SchemaMap) (s' : Schema)
    (h : resolve_schema_refs_recursive fuel s all = some s') : s'.allRefs = [] :=
  refsCleared_allRefs_nil s' (resolveRec_refsCleared fuel s all s' h)

/- Fuel stability: a successful resolver run is reproduced verbatim by
any larger fuel. -/

theorem mapValuesM_stable (f f2 : Schema → Option Schema)
    (hf : ∀ a b, f a = some b → f2 a = some b) (m : SchemaMap) :
    ∀ m2, m.mapValuesM f = some m2 → m.mapValuesM f2 = some m2 := by
  induction m using schemaMapSpineInduction with
  | hnil => intro m2 h; exact h
  | hcons n s rest ih =>
    intro m2 h
    obtain ⟨s2, rest2, hs2, hrest, rfl⟩ := (mapValuesM_cons_eq_some f n s rest m2).mp h
    exact (mapValuesM_cons_eq_some f2 n s rest _).mpr ⟨s2, rest2, hf _ _ hs2, ih rest2 hrest, rfl⟩

theorem schemaListMapM_stable (f f2 : Schema → Option Schema)
    (hf : ∀ a b, f a = some b → f2 a = some b) (l : SchemaList) :
    ∀ l2, l.mapM f = some l2 → l.mapM f2 = some l2 := by
  induction l using schemaListSpineInduction with
  | hnil => intro l2 h; exact h
  | hcons s rest ih =>
    intro l2 h
    obtain ⟨s2, rest2, hs2, hrest, rfl⟩ := (schemaListMapM_cons_eq_some f s rest l2).mp h
    exact (schemaListMapM_cons_eq_some f2 s rest _).mpr ⟨s2, rest2, hf _ _ hs2, ih rest2 hrest, rfl⟩

theorem optMapM_stable {α β : Type} (f f2 : α → Option β)
    (hf : ∀ a b, f a = some b → f2 a = some b) (o : Option α) :
    ∀ o2, optMapM f o = some o2 → optMapM f2 o = some o2 := by
  cases o with
  | none => intro o2 h; exact h
  | some x =>
    intro o2 h
    obtain ⟨y, hy, rfl⟩ := (optMapM_some_eq_some f x o2).mp h
    exact (optMapM_some_eq_some f2 x _).mpr ⟨y, hf _ _ hy, rfl⟩

theorem mapOptionList_stable {α β : Type} (f f2 : α → Option β)
    (hf : ∀ a b, f a = some b → f2 a = some b) (l : List α) :
    ∀ l2, mapOptionList f l = some l2 → mapOptionList f2 l = some l2 := by
  induction l with
  | nil => intro l2 h; exact h
  | cons x rest ih =>
    intro l2 h
    obtain ⟨y, rest2, hy, hrest, rfl⟩ := (mapOptionList_cons_eq_some f x rest l2).mp h
    exact (mapOptionList_cons_eq_some f2 x rest _).mpr ⟨y, rest2, hf _ _ hy, ih rest2 hrest, rfl⟩

theorem resolveStep_stable (g : Schema) (f f2 : Schema → Option Schema)
    (hf : ∀ a b, f a = some b → f2 a = some b) :
    ∀ x, resolveStep g f = some x → resolveStep g f2 = some x := by
  obtain ⟨ty, fm, ds, pr, it, rq, ao, oo, an, nt, ap, nu, ro, wo, ex, en, df, rf⟩ := g
  intro x h
  obtain ⟨pr2, it2, ao2, oo2, an2, h1, h2, h3, h4, h5, rfl⟩ :=
    (resolveStep_mk_eq_some _ _ _ _ _ _ _ _ _ _ _ _ _ _ _ _ _ _ _ _).mp h
  exact (resolveStep_mk_eq_some _ _ _ _ _ _ _ _ _ _ _ _ _ _ _ _ _ _ _ _).mpr
    ⟨pr2, it2, ao2, oo2, an2,
      optMapM_stable _ _ (fun a b => mapValuesM_stable f f2 hf a b) pr pr2 h1,
      optMapM_stable _ _ hf it it2 h2,
      optMapM_stable _ _ (fun a b => schemaListMapM_stable f f2 hf a b) ao ao2 h3,
      optMapM_stable _ _ (fun a b => schemaListMapM_stable f f2 hf a b) oo oo2 h4,
      optMapM_stable _ _ (fun a b => schemaListMapM_stable f f2 hf a b) an an2 h5, rfl⟩

theorem resolveRec_stable :
    ∀ (fuel fuel' : Nat), fuel ≤ fuel' → ∀ (s : Schema) (all : SchemaMap) (x : Schema),
      resolve_schema_refs_recursive fuel s all = some x →
      resolve_schema_refs_recursive fuel' s all = some x := by
  intro fuel
  induction fuel with
  | zero => intro fuel' _ s all x h; cases h
  | succ fuel ih =>
    intro fuel' hle s all x h
    cases fuel' with
    | zero => omega
    | succ fuel2 =>
      rw [resolve_schema_refs_recursive] at h
      rw [resolve_schema_refs_recursive]
      exact resolveStep_stable _ _ _
        (fun a b hb => ih fuel2 (by omega) a all b hb) x h

theorem go_stable (fuel fuel' : Nat) (hle : fuel ≤ fuel') :
    ∀ (names : List String) (m m' : SchemaMap),
      resolve_schema_references_go fuel names m = some m' →
      resolve_schema_references_go fuel' names m = some m' := by
  intro names
  induction names with
  | nil => intro m m' h; exact h
  | cons k rest ih =>
    intro m m' h
    rw [resolve_schema_references_go] at h
    rw [resolve_schema_references_go]
    cases hk : m.get k with
    | none =>
      rw [hk] at h
      exact ih m m' h
    | some sk =>
      rw [hk] at h
      dsimp only at h ⊢
      cases hres : resolve_schema_refs_recursive fuel sk m with
      | none => rw [hres] at h; cases h
      | some sk2 =>
        rw [hres] at h
        dsimp only at h
        rw [resolveRec_stable fuel fuel' hle sk m sk2 hres]
        dsimp only
        exact ih _ m' h

theorem mem_set_toList (m : SchemaMap) (n : String) (v : Schema) :
    ∀ p ∈ (m.set n v).toList, p ∈ m.toList ∨ p = (n, v) := by
  induction m using schemaMapSpineInduction with
  | hnil => intro p hp; cases hp
  | hcons name s rest ih =>
    intro p hp
    rw [SchemaMap.set] at hp
    by_cases hn : name = n
    · rw [if_pos hn] at hp
      rw [SchemaMap.toList] at hp
      rcases List.mem_cons.mp hp with rfl | hmem
      · right; rw [hn]
      · left; rw [SchemaMap.toList]; exact List.mem_cons_of_mem _ hmem
    · rw [if_neg hn] at hp
      rw [SchemaMap.toList] at hp
      rcases List.mem_cons.mp hp with rfl | hmem
      · left; rw [SchemaMap.toList]; exact List.mem_cons_self ..
      · rcases ih p hmem with h1 | h2
        · left; rw [SchemaMap.toList]; exact List.mem_cons_of_mem _ h1
        · right; exact h2

/-- The schema-name loop succeeds at some fuel whenever the current
map is rank-compatible, and rank compatibility survives the loop
(written-back entries carry no references at all). -/
theorem go_succeeds (r : String → Nat) :
    ∀ (names : List String) (m : SchemaMap), RankCompat m r →
      ∃ fuel m', resolve_schema_references_go fuel names m = some m' ∧ RankCompat m' r := by
  intro names
  induction names with
  | nil => intro m hm; exact ⟨0, m, rfl, hm⟩
  | cons k rest ih =>
    intro m hm
    cases hk : m.get k with
    | none =>
      obtain ⟨fuel, m', hgo, hm'⟩ := ih m hm
      refine ⟨fuel, m', ?_, hm'⟩
      rw [resolve_schema_references_go, hk]
      exact hgo
    | some sk =>
      have hrank : ∀ b ∈ sk.allRefs, r b < r k :=
        hm (k, sk) (SchemaMap.get_mem_toList m k sk hk)
      have h1 : (resolve_schema_refs_recursive
          (sk.sizeM + r k * (m.sizeMap + 1) + 1) sk m).isSome :=
        resolveRec_succeeds m r hm _ (r k) sk hrank (by omega)
      obtain ⟨sk2, hsk2⟩ := Option.isSome_iff_exists.mp h1
      have hnil : sk2.allRefs = [] := resolveRec_allRefs_nil _ sk m sk2 hsk2
      have hm2 : RankCompat (m.set k sk2) r := by
        intro p hp b hb
        rcases mem_set_toList m k sk2 p hp with hpm | rfl
        · exact hm p hpm b hb
        · have hb2 : b ∈ sk2.allRefs := hb
          rw [hnil] at hb2
          cases hb2
      obtain ⟨fuel2, m', hgo2, hm'c⟩ := ih (m.set k sk2) hm2
      refine ⟨max (sk.sizeM + r k * (m.sizeMap + 1) + 1) fuel2, m', ?_, hm'c⟩
      rw [resolve_schema_references_go, hk]
      dsimp only
      rw [resolveRec_stable _ _ (le_max_left _ _) sk m sk2 hsk2]
      dsimp only
      exact go_stable fuel2 _ (le_max_right _ _) rest _ m' hgo2

theorem resolve_schema_references_succeeds (r : String → Nat) (m : SchemaMap)
    (hm : RankCompat m r) :
    ∃ fuel m', resolve_schema_references fuel m = some m' ∧ RankCompat m' r := by
  obtain ⟨fuel, m', h, hc⟩ := go_succeeds r m.keys m hm
  exact ⟨fuel, m', h, hc⟩

/- The operation-side resolver: the same termination argument for
`resolve_parameter_schema_refs`, whose head step replaces a resolvable
reference node by a cleared copy of the target and which recurses into
property values and items only. -/

theorem clearReference_properties (t : Schema) : t.clearReference.properties = t.properties := by
  obtain ⟨ty, fm, ds, pr, it, rq, ao, oo, an, nt, ap, nu, ro, wo, ex, en, df, rf⟩ := t
  rfl

theorem clearReference_items (t : Schema) : t.clearReference.items = t.items := by
  obtain ⟨ty, fm, ds, pr, it, rq, ao, oo, an, nt, ap, nu, ro, wo, ex, en, df, rf⟩ := t
  rfl

theorem param_node_replacement_cases (s : Schema) (spec : OpenApiSpec) :
    param_node_replacement s spec = s ∨
    ∃ rp tname t, s.reference = some rp ∧ extract_schema_name_from_ref rp = some tname ∧
      (specSchemas spec).get tname = some t ∧
      param_node_replacement s spec = t.clearReference := by
  rw [param_node_replacement]
  cases hrf : s.reference with
  | none => exact Or.inl rfl
  | some rp =>
    dsimp only
    cases hex : extract_schema_name_from_ref rp with
    | none => exact Or.inl rfl
    | some tname =>
      dsimp only
      cases hcs : spec.components with
      | none => exact Or.inl rfl
      | some components =>
        dsimp only
        cases hsch : components.schemas with
        | none => exact Or.inl rfl
        | some schemas =>
          dsimp only
          cases hgt : schemas.get tname with
          | none => exact Or.inl rfl
          | some t =>
            right
            refine ⟨rp, tname, t, rfl, hex, ?_, rfl⟩
            rw [specSchemas, hcs]
            dsimp only
            rw [hsch]
            exact hgt

theorem paramStep_isSome (g : Schema) (f : Schema → Option Schema)
    (hpr : ∀ l, g.properties = some l →
      ∀ (n : String) (v : Schema), (n, v) ∈ l.toList → (f v).isSome)
    (hit : ∀ v, g.items = some v → (f v).isSome) : (paramStep g f).isSome := by
  obtain ⟨ty, fm, ds, pr, it, rq, ao, oo, an, nt, ap, nu, ro, wo, ex, en, df, rf⟩ := g
  rw [Schema.properties] at hpr
  rw [Schema.items] at hit
  rw [paramStep]
  have h1 : (optMapM (SchemaMap.mapValuesM f) pr).isSome := by
    apply optMapM_isSome
    intro l hl
    exact mapValuesM_isSome f l (hpr l hl)
  have h2 : (optMapM f it).isSome := optMapM_isSome f it hit
  obtain ⟨pr2, hpr2⟩ := Option.isSome_iff_exists.mp h1
  obtain ⟨it2, hit2⟩ := Option.isSome_iff_exists.mp h2
  rw [hpr2, Option.some_bind, hit2, Option.map_some']
  rfl

theorem paramRec_succeeds (spec : OpenApiSpec) (r : String → Nat)
    (hcompat : RankCompat (specSchemas spec) r) :
    ∀ (fuel R : Nat) (s : Schema), (∀ b ∈ s.allRefs, r b < R) →
      s.sizeM + R * ((specSchemas spec).sizeMap + 1) < fuel →
      (resolve_parameter_schema_refs fuel s spec).isSome := by
  intro fuel
  induction fuel with
  | zero => intro R s _ hfuel; omega
  | succ fuel ih =>
    intro R s hrank hfuel
    rw [resolve_parameter_schema_refs]
    rcases param_node_replacement_cases s spec with hsame | ⟨rp, tname, t, hrp, hex, hgt, hrepl⟩
    · rw [hsame]
      apply paramStep_isSome
      · intro l hl n v hm
        apply ih R v (fun b hb => hrank b (props_child_refs s l hl n v hm b hb))
        have := props_child_size s l hl n v hm
        omega
      · intro v hv
        apply ih R v (fun b hb => hrank b (items_child_refs s v hv b hb))
        have := items_child_size s v hv
        omega
    · rw [hrepl]
      have htmem : (tname, t) ∈ (specSchemas spec).toList :=
        SchemaMap.get_mem_toList _ tname t hgt
      have htrank : ∀ b ∈ t.allRefs, r b < r tname := hcompat (tname, t) htmem
      have hRpos : r tname < R := hrank tname (ref_target_mem s rp tname hrp hex)
      have htsize : t.sizeM ≤ (specSchemas spec).sizeMap := sizeMap_get_le _ tname t hgt
      have hspos : 1 ≤ s.sizeM := sizeM_pos s
      have hmul : (R - 1) * ((specSchemas spec).sizeMap + 1) + ((specSchemas spec).sizeMap + 1) =
          R * ((specSchemas spec).sizeMap + 1) := by
        cases R with
        | zero => omega
        | succ R0 => simp [Nat.succ_mul]
      have hmul2 : r tname * ((specSchemas spec).sizeMap + 1) ≤
          (R - 1) * ((specSchemas spec).sizeMap + 1) :=
        Nat.mul_le_mul_right _ (by omega)
      apply paramStep_isSome
      · intro l hl n v hm
        rw [clearReference_properties] at hl
        apply ih (r tname) v (fun b hb => htrank b (props_child_refs t l hl n v hm b hb))
        have := props_child_size t l hl n v hm
        omega
      · intro v hv
        rw [clearReference_items] at hv
        apply ih (r tname) v (fun b hb => htrank b (items_child_refs t v hv b hb))
        have := items_child_size t v hv
        omega

theorem resolve_operation_references_isSome (fuel : Nat) (op : Operation) (spec : OpenApiSpec)
    (h : ∀ s ∈ opSchemas op, (resolve_parameter_schema_refs fuel s spec).isSome) :
    (resolve_operation_references fuel op spec).isSome := by
  rw [resolve_operation_references]
  have h1 : (optMapM
      (resolveParamList (fun s => resolve_parameter_schema_refs fuel s spec))
      op.parameters).isSome := by
    apply optMapM_isSome
    intro params hparams
    apply mapOptionList_isSome
    intro p hp
    cases hps : p.schema with
    | none => rfl
    | some s =>
      dsimp only
      have hmem : s ∈ opSchemas op := by
        rw [opSchemas, hparams]
        simp only [List.mem_append]
        exact Or.inl (Or.inl (List.mem_filterMap.mpr ⟨p, hp, hps⟩))
      obtain ⟨s2, hs2⟩ := Option.isSome_iff_exists.mp (h s hmem)
      rw [hs2, Option.map_some']
      rfl
  have h2 : (optMapM
      (fun rb =>
        (resolveContentList (fun s => resolve_parameter_schema_refs fuel s spec) rb.content).map
          fun c2 => { rb with content := c2 })
      op.request_body).isSome := by
    apply optMapM_isSome
    intro rb hrb
    dsimp only
    have hcl : (resolveContentList
        (fun s => resolve_parameter_schema_refs fuel s spec) rb.content).isSome := by
      apply mapOptionList_isSome
      intro ct hct
      cases hcs : ct.2.schema with
      | none => rfl
      | some s =>
        dsimp only
        have hmem : s ∈ opSchemas op := by
          rw [opSchemas, hrb]
          simp only [List.mem_append]
          exact Or.inl (Or.inr (List.mem_filterMap.mpr ⟨ct, hct, hcs⟩))
        obtain ⟨s2, hs2⟩ := Option.isSome_iff_exists.mp (h s hmem)
        rw [hs2, Option.map_some']
        rfl
    obtain ⟨c2, hc2⟩ := Option.isSome_iff_exists.mp hcl
    rw [hc2, Option.map_some']
    rfl
  have h3 : (mapOptionList
      (fun (resp : String × Response) =>
        match resp.2.content with
        | none => some resp
        | some content =>
          (resolveContentList (fun s => resolve_parameter_schema_refs fuel s spec) content).map
            fun c2 => (resp.1, { resp.2 with content := some c2 }))
      op.responses).isSome := by
    apply mapOptionList_isSome
    intro resp hresp
    cases hrc : resp.2.content with
    | none => rfl
    | some content =>
      dsimp only
      have hcl : (resolveContentList
          (fun s => resolve_parameter_schema_refs fuel s spec) content).isSome := by
        apply mapOptionList_isSome
        intro ct hct
        cases hcs : ct.2.schema with
        | none => rfl
        | some s =>
          dsimp only
          have hmem : s ∈ opSchemas op := by
            rw [opSchemas]
            simp only [List.mem_append]
            refine Or.inr (List.mem_flatMap.mpr ⟨resp, hresp, ?_⟩)
            rw [hrc]
            exact List.mem_filterMap.mpr ⟨ct, hct, hcs⟩
          obtain ⟨s2, hs2⟩ := Option.isSome_iff_exists.mp (h s hmem)
          rw [hs2, Option.map_some']
          rfl
      obtain ⟨c2, hc2⟩ := Option.isSome_iff_exists.mp hcl
      rw [hc2, Option.map_some']
      rfl
  obtain ⟨p2, hp2⟩ := Option.isSome_iff_exists.mp h1
  obtain ⟨rb2, hrb2⟩ := Option.isSome_iff_exists.mp h2
  obtain ⟨resp2, hresp2⟩ := Option.isSome_iff_exists.mp h3
  rw [hp2, Option.some_bind, hrb2, Option.some_bind, hresp2, Option.map_some']
  rfl

theorem resolve_paths_isSome (fuel : Nat) (paths : List (String × PathItem))
    (spec1 : OpenApiSpec)
    (h : ∀ pp ∈ paths, ∀ mo ∈ pp.2.operations, ∀ s ∈ opSchemas mo.2,
      (resolve_parameter_schema_refs fuel s spec1).isSome) :
    (resolve_paths fuel paths spec1).isSome := by
  rw [resolve_paths]
  apply mapOptionList_isSome
  intro pp hpp
  dsimp only
  have hops : (mapOptionList
      (fun (mo : String × Operation) =>
        (resolve_operation_references fuel mo.2 spec1).map fun op2 => (mo.1, op2))
      pp.2.operations).isSome := by
    apply mapOptionList_isSome
    intro mo hmo
    dsimp only
    have := resolve_operation_references_isSome fuel mo.2 spec1 (h pp hpp mo hmo)
    obtain ⟨op2, hop2⟩ := Option.isSome_iff_exists.mp this
    rw [hop2, Option.map_some']
    rfl
  obtain ⟨ops2, hops2⟩ := Option.isSome_iff_exists.mp hops
  rw [hops2, Option.map_some']
  rfl

theorem resolve_schema_references_stable (fuel fuel' : Nat) (hle : fuel ≤ fuel')
    (m m' : SchemaMap) (h : resolve_schema_references fuel m = some m') :
    resolve_schema_references fuel' m = some m' :=
  go_stable fuel fuel' hle m.keys m m' h

/-- C4: on every document whose named-schema reference graph admits a
rank function strictly decreasing along reference edges — the
acyclicity of the finite reference graph — `resolve_references`
terminates successfully: some finite fuel makes the fuel-indexed
resolver return a resolved document rather than exhausting its
recursion budget. -/
theorem resolution_terminates_on_acyclic (spec : OpenApiSpec) (r : String → Nat)
    (hcompat : RankCompat (specSchemas spec) r) :
    ∃ fuel spec', resolve_references fuel spec = some spec' := by
  have hstage : ∃ fuel1 spec1,
      (∀ fuel', fuel1 ≤ fuel' → resolve_components fuel' spec = some spec1) ∧
      RankCompat (specSchemas spec1) r := by
    cases hcs : spec.components with
    | none =>
      refine ⟨0, spec, ?_, hcompat⟩
      intro fuel' _
      rw [resolve_components, hcs]
    | some components =>
      cases hsch : components.schemas with
      | none =>
        refine ⟨0, spec, ?_, hcompat⟩
        intro fuel' _
        rw [resolve_components, hcs]
        dsimp only
        rw [hsch]
      | some schemas =>
        have hschemas : specSchemas spec = schemas := by
          rw [specSchemas, hcs]
          dsimp only
          rw [hsch]
        rw [hschemas] at hcompat
        obtain ⟨fuel1, schemas2, hrs, hc2⟩ :=
          resolve_schema_references_succeeds r schemas hcompat
        refine ⟨fuel1,
          { spec with components := some { components with schemas := some schemas2 } },
          ?_, ?_⟩
        · intro fuel' hle
          rw [resolve_components, hcs]
          dsimp only
          rw [hsch]
          dsimp only
          rw [resolve_schema_references_stable fuel1 fuel' hle schemas schemas2 hrs,
            Option.map_some']
        · exact hc2
  obtain ⟨fuel1, spec1, hcomp, hc1⟩ := hstage
  have hops : ∃ fuelOps, ∀ fuel', fuelOps ≤ fuel' →
      ∀ s ∈ specOpSchemas spec1, (resolve_parameter_schema_refs fuel' s spec1).isSome := by
    refine ⟨listSizeM (specOpSchemas spec1) +
      (maxRank r ((specOpSchemas spec1).flatMap Schema.allRefs) + 1) *
        ((specSchemas spec1).sizeMap + 1) + 1, ?_⟩
    intro fuel' hle s hs
    apply paramRec_succeeds spec1 r hc1 fuel'
      (maxRank r ((specOpSchemas spec1).flatMap Schema.allRefs) + 1) s
    · intro b hb
      have := maxRank_mem_le r ((specOpSchemas spec1).flatMap Schema.allRefs) b
        (List.mem_flatMap.mpr ⟨s, hs, hb⟩)
      omega
    · have h1 := listSizeM_mem_le (specOpSchemas spec1) s hs
      omega
  obtain ⟨fuelOps, hops⟩ := hops
  have hpaths : (resolve_paths (max fuel1 fuelOps) spec1.paths spec1).isSome := by
    apply resolve_paths_isSome
    intro pp hpp mo hmo s hs
    apply hops _ (le_max_right _ _) s
    rw [specOpSchemas]
    exact List.mem_flatMap.mpr ⟨pp, hpp, List.mem_flatMap.mpr ⟨mo, hmo, hs⟩⟩
  obtain ⟨paths2, hpaths2⟩ := Option.isSome_iff_exists.mp hpaths
  refine ⟨max fuel1 fuelOps, { spec1 with paths := paths2 }, ?_⟩
  rw [resolve_references, hcomp _ (le_max_left _ _), Option.some_bind, hpaths2,
    Option.map_some']

theorem resolution_terminates_on_acyclic_witness :
    RankCompat (specSchemas c4Spec) c4Rank ∧
    ∃ fuel spec', resolve_references fuel c4Spec = some spec' :=
  ⟨by unfold RankCompat; decide,
    resolution_terminates_on_acyclic c4Spec c4Rank (by unfold RankCompat; decide)⟩
